import Mathlib

/-!
Formal model of the segmentation-and-quantification core of
`muapplication/apps/tissue/core.py` (peak/Voronoi segmentation,
background-threshold watershed segmentation, per-cell quantification,
and the pipeline drivers), as a shallow embedding in Lean 4.

Conventions of the embedding:
* A frame of height `h`, width `w` is a function `ℕ → ℕ → ℚ`; only the
  values at `y < h`, `x < w` are meaningful (rationals stand in for the
  float64 values of the source; the algorithms only add, compare and
  take medians, so exact rational arithmetic is faithful up to float
  rounding, which the spec places out of scope).
* A mask is a function `ℕ → ℕ → ℕ` (0 = background).
* Euclidean distances are carried as exact squared distances in `ℕ`.
  Every comparison the source makes on distances (`dist > 0.5` for
  integer-valued squared distances, `dist >= max_dist`, and the
  watershed flooding priority on `-dist`) is strictly monotone in the
  squared distance, so the embedding preserves all comparisons.
* The Gaussian blur `ndimage.gaussian_filter` is a float library
  routine; it is carried as an opaque parameter `blur` of the
  segmenters, applied exactly when `sigma > 0` as in the source
  (`if sigma > 0: fluo = gaussian_filter(...)`).  All the claims
  treated here are independent of the content of the blurred values.
-/

/-- Positions are `(row, column)` pairs. -/
abbrev Pos := ℕ × ℕ

/-- `p` lies inside an `h × w` frame. -/
def inBounds (h w : ℕ) (p : Pos) : Prop := p.1 < h ∧ p.2 < w

instance (h w : ℕ) (p : Pos) : Decidable (inBounds h w p) := by
  unfold inBounds; infer_instance

/-- All positions of an `h × w` frame in row-major (C, scan) order:
the order in which `np.where`, `np.ndindex` and the scipy labeling
routines traverse a 2-D array. -/
def rowMajor (h w : ℕ) : List Pos :=
  (List.range h).flatMap fun y => (List.range w).map fun x => (y, x)

theorem mem_rowMajor {h w : ℕ} {p : Pos} :
    p ∈ rowMajor h w ↔ inBounds h w p := by
  cases p with
  | mk y x =>
    simp only [rowMajor, List.mem_flatMap, List.mem_map, List.mem_range, inBounds]
    constructor
    · rintro ⟨a, ha, b, hb, h⟩
      cases h; exact ⟨ha, hb⟩
    · rintro ⟨hy, hx⟩
      exact ⟨y, hy, x, hx, rfl⟩

theorem rowMajor_nodup (h w : ℕ) : (rowMajor h w).Nodup := by
  rw [rowMajor, List.nodup_flatMap]
  constructor
  · intro y _
    exact (List.nodup_range w).map (fun a b hab => by injection hab)
  · have hdisj : ∀ a b : ℕ, a ≠ b →
      ∀ p ∈ (List.range w).map (fun x => (a, x)),
        p ∉ (List.range w).map (fun x => (b, x)) := by
      intro a b hab p hpa hpb
      simp only [List.mem_map] at hpa hpb
      obtain ⟨xa, _, rfl⟩ := hpa
      obtain ⟨xb, _, h⟩ := hpb
      exact hab (by injection h.symm)
    exact (List.nodup_range h).pairwise_of_forall_ne
      (fun a _ b _ hab => List.disjoint_left.mpr (hdisj a b hab))

theorem rowMajor_length (h w : ℕ) : (rowMajor h w).length = h * w := by
  simp [rowMajor, List.length_flatMap, Function.comp_def, List.map_const']

/-- The 4-neighbours of `p` that fall inside the `h × w` frame
(the cross-shaped default structuring element of `ndimage.label` and
the `connectivity=1` default of `skimage.watershed`). -/
def nbrs (h w : ℕ) (p : Pos) : List Pos :=
  (if 0 < p.1 then [(p.1 - 1, p.2)] else []) ++
  (if p.1 + 1 < h then [(p.1 + 1, p.2)] else []) ++
  (if 0 < p.2 then [(p.1, p.2 - 1)] else []) ++
  (if p.2 + 1 < w then [(p.1, p.2 + 1)] else [])

theorem mem_ite_singleton {c : Prop} [Decidable c] {a q : Pos} :
    (q ∈ if c then [a] else ([] : List Pos)) ↔ c ∧ q = a := by
  split <;> simp_all

theorem mem_nbrs {h w : ℕ} {p q : Pos} : q ∈ nbrs h w p ↔
    (0 < p.1 ∧ q = (p.1 - 1, p.2)) ∨ (p.1 + 1 < h ∧ q = (p.1 + 1, p.2)) ∨
    (0 < p.2 ∧ q = (p.1, p.2 - 1)) ∨ (p.2 + 1 < w ∧ q = (p.1, p.2 + 1)) := by
  simp [nbrs, mem_ite_singleton, or_assoc]

theorem nbrs_inBounds {h w : ℕ} {p q : Pos} (hp : inBounds h w p)
    (hq : q ∈ nbrs h w p) : inBounds h w q := by
  obtain ⟨hp1, hp2⟩ := hp
  rw [mem_nbrs] at hq
  rcases hq with ⟨hc, rfl⟩ | ⟨hc, rfl⟩ | ⟨hc, rfl⟩ | ⟨hc, rfl⟩ <;>
    exact ⟨by omega, by omega⟩

theorem nbrs_symm {h w : ℕ} {p q : Pos} (hp : inBounds h w p)
    (hq : q ∈ nbrs h w p) : p ∈ nbrs h w q := by
  obtain ⟨hp1, hp2⟩ := hp
  rw [mem_nbrs] at hq
  rw [mem_nbrs]
  rcases hq with ⟨hc, rfl⟩ | ⟨hc, rfl⟩ | ⟨hc, rfl⟩ | ⟨hc, rfl⟩
  · exact Or.inr (Or.inl ⟨by omega, by simp [Prod.ext_iff]; omega⟩)
  · exact Or.inl ⟨by omega, by simp [Prod.ext_iff]⟩
  · exact Or.inr (Or.inr (Or.inr ⟨by omega, by simp [Prod.ext_iff]; omega⟩))
  · exact Or.inr (Or.inr (Or.inl ⟨by omega, by simp [Prod.ext_iff]⟩))

/-! ### Connected components (4-connectivity)

`ndimage.label` groups the true pixels of a boolean mask into
4-connected components.  `maskAdj` is one step of that connectivity;
`reachL` computes the component of a pixel by an iterated frontier
expansion (`h*w` rounds always reach the fixpoint), and
`mem_reachL_iff` characterises it by the reflexive-transitive closure.
-/

/-- One connectivity step: `q` is an in-bounds 4-neighbour of `p` and
is itself a true pixel of the mask. -/
def maskAdj (h w : ℕ) (mask : ℕ → ℕ → Bool) (p q : Pos) : Prop :=
  q ∈ nbrs h w p ∧ mask q.1 q.2 = true

/-- One round of frontier expansion: all true pixels that are in `s`
or 4-adjacent to a member of `s`. -/
def expandStep (h w : ℕ) (mask : ℕ → ℕ → Bool) (s : List Pos) : List Pos :=
  (rowMajor h w).filter fun q =>
    mask q.1 q.2 && (decide (q ∈ s) || (nbrs h w q).any fun n => decide (n ∈ s))

/-- The 4-connected component of `p` in `mask` (as a list of pixels):
`h*w` rounds of expansion starting from `p` alone. -/
def reachL (h w : ℕ) (mask : ℕ → ℕ → Bool) (p : Pos) : List Pos :=
  (expandStep h w mask)^[h * w] [p]

theorem mem_expandStep {h w : ℕ} {mask : ℕ → ℕ → Bool} {s : List Pos} {q : Pos} :
    q ∈ expandStep h w mask s ↔
      inBounds h w q ∧ mask q.1 q.2 = true ∧
        (q ∈ s ∨ ∃ n ∈ nbrs h w q, n ∈ s) := by
  simp [expandStep, List.mem_filter, mem_rowMajor, List.any_eq_true, and_assoc]

theorem expandStep_iterate_succ {h w : ℕ} {mask : ℕ → ℕ → Bool} (n : ℕ)
    (s : List Pos) :
    (expandStep h w mask)^[n + 1] s =
      expandStep h w mask ((expandStep h w mask)^[n] s) :=
  Function.iterate_succ_apply' _ n s

theorem expandStep_iter_elements {h w : ℕ} {mask : ℕ → ℕ → Bool} {p : Pos}
    (hb : inBounds h w p) (hm : mask p.1 p.2 = true) :
    ∀ n, ∀ x ∈ (expandStep h w mask)^[n] [p],
      inBounds h w x ∧ mask x.1 x.2 = true := by
  intro n
  induction n with
  | zero => intro x hx; simp only [Function.iterate_zero, id_eq, List.mem_singleton] at hx
            subst hx; exact ⟨hb, hm⟩
  | succ n ih =>
      intro x hx
      rw [expandStep_iterate_succ, mem_expandStep] at hx
      exact ⟨hx.1, hx.2.1⟩

theorem expandStep_iter_mono {h w : ℕ} {mask : ℕ → ℕ → Bool} {p : Pos}
    (hb : inBounds h w p) (hm : mask p.1 p.2 = true) :
    ∀ n, ∀ x ∈ (expandStep h w mask)^[n] [p],
      x ∈ (expandStep h w mask)^[n + 1] [p] := by
  intro n x hx
  rw [expandStep_iterate_succ, mem_expandStep]
  obtain ⟨hbx, hmx⟩ := expandStep_iter_elements hb hm n x hx
  exact ⟨hbx, hmx, Or.inl hx⟩

theorem expandStep_iter_le {h w : ℕ} {mask : ℕ → ℕ → Bool} {p : Pos}
    (hb : inBounds h w p) (hm : mask p.1 p.2 = true) {m n : ℕ} (hmn : m ≤ n) :
    ∀ x ∈ (expandStep h w mask)^[m] [p], x ∈ (expandStep h w mask)^[n] [p] := by
  obtain ⟨k, rfl⟩ := Nat.exists_eq_add_of_le hmn
  clear hmn
  induction k with
  | zero => intro x hx; exact hx
  | succ k ih => intro x hx; exact expandStep_iter_mono hb hm (m + k) x (ih x hx)

theorem expandStep_iter_sound {h w : ℕ} {mask : ℕ → ℕ → Bool} {p : Pos} :
    ∀ n, ∀ x ∈ (expandStep h w mask)^[n] [p],
      Relation.ReflTransGen (maskAdj h w mask) p x := by
  intro n
  induction n with
  | zero => intro x hx; simp only [Function.iterate_zero, id_eq, List.mem_singleton] at hx
            subst hx; exact Relation.ReflTransGen.refl
  | succ n ih =>
      intro x hx
      rw [expandStep_iterate_succ, mem_expandStep] at hx
      obtain ⟨hbx, hmx, hx | ⟨nb, hnb, hnbs⟩⟩ := hx
      · exact ih x hx
      · exact (ih nb hnbs).tail ⟨nbrs_symm hbx hnb, hmx⟩

theorem expandStep_congr_mem {h w : ℕ} {mask : ℕ → ℕ → Bool} {s t : List Pos}
    (hst : ∀ x, x ∈ s ↔ x ∈ t) :
    ∀ x, x ∈ expandStep h w mask s ↔ x ∈ expandStep h w mask t := by
  intro x
  rw [mem_expandStep, mem_expandStep]
  simp only [hst]

theorem expandStep_iter_stable_succ {h w : ℕ} {mask : ℕ → ℕ → Bool} {p : Pos}
    {n : ℕ}
    (hP : ∀ x, x ∈ (expandStep h w mask)^[n + 1] [p] ↔
      x ∈ (expandStep h w mask)^[n] [p]) :
    ∀ x, x ∈ (expandStep h w mask)^[n + 2] [p] ↔
      x ∈ (expandStep h w mask)^[n + 1] [p] := by
  intro x
  have e2 : (expandStep h w mask)^[n + 2] [p] =
      expandStep h w mask ((expandStep h w mask)^[n + 1] [p]) :=
    Function.iterate_succ_apply' _ (n + 1) [p]
  simp only [expandStep_iterate_succ n] at hP
  rw [e2, expandStep_iterate_succ n]
  exact expandStep_congr_mem hP x

theorem expandStep_iter_stable_ge {h w : ℕ} {mask : ℕ → ℕ → Bool} {p : Pos}
    {n : ℕ}
    (hP : ∀ x, x ∈ (expandStep h w mask)^[n + 1] [p] ↔
      x ∈ (expandStep h w mask)^[n] [p]) :
    ∀ k x, x ∈ (expandStep h w mask)^[n + k] [p] ↔
      x ∈ (expandStep h w mask)^[n] [p] := by
  have step : ∀ k, ∀ x, x ∈ (expandStep h w mask)^[n + k + 1] [p] ↔
      x ∈ (expandStep h w mask)^[n + k] [p] := by
    intro k
    induction k with
    | zero => exact hP
    | succ k ih => exact expandStep_iter_stable_succ ih
  intro k
  induction k with
  | zero => intro x; rfl
  | succ k ih => intro x; exact (step k x).trans (ih x)

theorem expandStep_iter_stable_at_top {h w : ℕ} {mask : ℕ → ℕ → Bool} {p : Pos}
    (hb : inBounds h w p) (hm : mask p.1 p.2 = true) :
    ∀ x, x ∈ (expandStep h w mask)^[h * w + 1] [p] ↔
      x ∈ (expandStep h w mask)^[h * w] [p] := by
  have key : ∀ n, n ≤ h * w →
      (∃ m ≤ n, ∀ x, x ∈ (expandStep h w mask)^[m + 1] [p] ↔
        x ∈ (expandStep h w mask)^[m] [p]) ∨
      n + 1 ≤ ((expandStep h w mask)^[n] [p]).toFinset.card := by
    intro n
    induction n with
    | zero => intro _; right; simp
    | succ n ih =>
        intro hn
        rcases ih (by omega) with ⟨m, hm', hPm⟩ | hcard
        · exact Or.inl ⟨m, by omega, hPm⟩
        · by_cases hPn : ∀ x, x ∈ (expandStep h w mask)^[n + 1] [p] ↔
            x ∈ (expandStep h w mask)^[n] [p]
          · exact Or.inl ⟨n, by omega, hPn⟩
          · right
            push_neg at hPn
            obtain ⟨x, hx⟩ := hPn
            have hxmem : x ∈ (expandStep h w mask)^[n + 1] [p] ∧
                x ∉ (expandStep h w mask)^[n] [p] := by
              rcases hx with ⟨h1, h2⟩ | ⟨h1, h2⟩
              · exact ⟨h1, h2⟩
              · exact absurd (expandStep_iter_mono hb hm n x h2) h1
            have hsub : ((expandStep h w mask)^[n] [p]).toFinset ⊆
                ((expandStep h w mask)^[n + 1] [p]).toFinset := by
              intro a ha
              rw [List.mem_toFinset] at ha ⊢
              exact expandStep_iter_mono hb hm n a ha
            have hss : ((expandStep h w mask)^[n] [p]).toFinset ⊂
                ((expandStep h w mask)^[n + 1] [p]).toFinset := by
              rw [Finset.ssubset_iff_of_subset hsub]
              exact ⟨x, List.mem_toFinset.mpr hxmem.1, fun hc =>
                hxmem.2 (List.mem_toFinset.mp hc)⟩
            have := Finset.card_lt_card hss
            omega
  rcases key (h * w) le_rfl with ⟨m, hmle, hPm⟩ | hcard
  · intro x
    have h1 := expandStep_iter_stable_ge hPm (h * w - m) x
    have h2 := expandStep_iter_stable_ge hPm (h * w + 1 - m) x
    rw [show m + (h * w - m) = h * w by omega] at h1
    rw [show m + (h * w + 1 - m) = h * w + 1 by omega] at h2
    rw [h1, h2]
  · exfalso
    have hsub : ((expandStep h w mask)^[h * w] [p]).toFinset ⊆
        (rowMajor h w).toFinset := by
      intro a ha
      rw [List.mem_toFinset] at ha ⊢
      exact mem_rowMajor.mpr (expandStep_iter_elements hb hm _ a ha).1
    have hle := Finset.card_le_card hsub
    have : (rowMajor h w).toFinset.card = h * w := by
      rw [List.toFinset_card_of_nodup (rowMajor_nodup h w), rowMajor_length]
    omega

theorem reachL_closed {h w : ℕ} {mask : ℕ → ℕ → Bool} {p : Pos}
    (hb : inBounds h w p) (hm : mask p.1 p.2 = true)
    {x q : Pos} (hx : x ∈ reachL h w mask p)
    (hadj : maskAdj h w mask x q) : q ∈ reachL h w mask p := by
  have hbx := (expandStep_iter_elements hb hm _ x hx).1
  have hbq := nbrs_inBounds hbx hadj.1
  have hq : q ∈ (expandStep h w mask)^[h * w + 1] [p] := by
    rw [expandStep_iterate_succ, mem_expandStep]
    exact ⟨hbq, hadj.2, Or.inr ⟨x, nbrs_symm hbx hadj.1, hx⟩⟩
  exact (expandStep_iter_stable_at_top hb hm q).mp hq

theorem mem_reachL_iff {h w : ℕ} {mask : ℕ → ℕ → Bool} {p x : Pos}
    (hb : inBounds h w p) (hm : mask p.1 p.2 = true) :
    x ∈ reachL h w mask p ↔
      Relation.ReflTransGen (maskAdj h w mask) p x := by
  constructor
  · exact expandStep_iter_sound (h * w) x
  · intro hrtg
    induction hrtg with
    | refl =>
        exact expandStep_iter_le hb hm (Nat.zero_le _) p (by simp)
    | tail _ hstep ih => exact reachL_closed hb hm ih hstep

theorem rtg_maskAdj_elements {h w : ℕ} {mask : ℕ → ℕ → Bool} {p x : Pos}
    (hb : inBounds h w p) (hm : mask p.1 p.2 = true)
    (hx : Relation.ReflTransGen (maskAdj h w mask) p x) :
    inBounds h w x ∧ mask x.1 x.2 = true := by
  induction hx with
  | refl => exact ⟨hb, hm⟩
  | tail _ hstep ih => exact ⟨nbrs_inBounds ih.1 hstep.1, hstep.2⟩

theorem rtg_maskAdj_symm {h w : ℕ} {mask : ℕ → ℕ → Bool} {p x : Pos}
    (hb : inBounds h w p) (hm : mask p.1 p.2 = true)
    (hx : Relation.ReflTransGen (maskAdj h w mask) p x) :
    Relation.ReflTransGen (maskAdj h w mask) x p := by
  induction hx with
  | refl => exact Relation.ReflTransGen.refl
  | @tail y z hpy hstep ih =>
      have hy := rtg_maskAdj_elements hb hm hpy
      exact Relation.ReflTransGen.head ⟨nbrs_symm hy.1 hstep.1, hy.2⟩ ih

/-! ### Connected-component labeling (`ndimage.label`, 4-connectivity)

Components are numbered `1..N` in order of first encounter in row-major
scan order, which is the numbering `ndimage.label` produces.  The
representative of a component is its row-major-first pixel; component
`i` is the one whose representative is the `i`-th representative in
row-major order. -/

/-- Row-major-first pixel of the component of `p` (meaningful when `p`
is a true in-bounds pixel of the mask). -/
def componentRep (h w : ℕ) (mask : ℕ → ℕ → Bool) (p : Pos) : Pos :=
  (((rowMajor h w).filter fun q => decide (q ∈ reachL h w mask p))).headD p

/-- The component representatives in row-major order. -/
def repsList (h w : ℕ) (mask : ℕ → ℕ → Bool) : List Pos :=
  (rowMajor h w).filter fun r =>
    mask r.1 r.2 && decide (componentRep h w mask r = r)

/-- Index of the first occurrence of `r` in `l` (`l.length` if absent). -/
def posIdx : List Pos → Pos → ℕ
  | [], _ => 0
  | q :: rest, r => if q = r then 0 else posIdx rest r + 1

/-- The label `ndimage.label` assigns to pixel `p`: `0` off the mask,
`1..N` by component. -/
def labelOf (h w : ℕ) (mask : ℕ → ℕ → Bool) (p : Pos) : ℕ :=
  if mask p.1 p.2 then
    posIdx (repsList h w mask) (componentRep h w mask p) + 1
  else 0

theorem posIdx_lt_length {l : List Pos} {r : Pos} (hr : r ∈ l) :
    posIdx l r < l.length := by
  induction l with
  | nil => exact absurd hr (List.not_mem_nil r)
  | cons q rest ih =>
      rw [posIdx]
      split
      · simp
      · next hne =>
          have : r ∈ rest := by
            rcases List.mem_cons.mp hr with h | h
            · exact absurd h.symm hne
            · exact h
          simpa [List.length_cons] using ih this

theorem posIdx_get? {l : List Pos} {r : Pos} (hr : r ∈ l) :
    l.get? (posIdx l r) = some r := by
  induction l with
  | nil => exact absurd hr (List.not_mem_nil r)
  | cons q rest ih =>
      rcases Decidable.em (q = r) with heq | hne
      · simp [posIdx, heq]
      · have hmem : r ∈ rest := by
          rcases List.mem_cons.mp hr with hc | hc
          · exact absurd hc.symm hne
          · exact hc
        rw [posIdx, if_neg hne]
        simpa using ih hmem

theorem posIdx_eq_of_get? {l : List Pos} (hnd : l.Nodup) {i : ℕ} {r : Pos}
    (hg : l.get? i = some r) : posIdx l r = i := by
  induction l generalizing i with
  | nil => simp at hg
  | cons q rest ih =>
      cases i with
      | zero =>
          simp only [List.get?_cons_zero, Option.some.injEq] at hg
          subst hg
          simp [posIdx]
      | succ i =>
          simp only [List.get?_cons_succ] at hg
          have hmem : r ∈ rest := List.get?_mem hg
          have hqne : q ≠ r := fun hc => (List.nodup_cons.mp hnd).1 (hc ▸ hmem)
          rw [posIdx, if_neg hqne, ih (List.nodup_cons.mp hnd).2 hg]

/-- The number `N` of components found by `ndimage.label`. -/
def numLabels (h w : ℕ) (mask : ℕ → ℕ → Bool) : ℕ :=
  (repsList h w mask).length

theorem labelOf_eq_zero {h w : ℕ} {mask : ℕ → ℕ → Bool} {p : Pos}
    (hm : mask p.1 p.2 = false) : labelOf h w mask p = 0 := by
  simp [labelOf, hm]

theorem headD_mem_of_ne_nil {l : List Pos} {d : Pos} (h : l ≠ []) :
    l.headD d ∈ l := by
  cases l with
  | nil => exact absurd rfl h
  | cons x xs => simp [List.headD]

theorem headD_eq_of_eq_ne_nil {l l' : List Pos} {d d' : Pos} (heq : l = l')
    (h : l ≠ []) : l.headD d = l'.headD d' := by
  subst heq
  cases l with
  | nil => exact absurd rfl h
  | cons x xs => rfl

theorem componentRep_spec {h w : ℕ} {mask : ℕ → ℕ → Bool} {p : Pos}
    (hb : inBounds h w p) (hm : mask p.1 p.2 = true) :
    componentRep h w mask p ∈ rowMajor h w ∧
      componentRep h w mask p ∈ reachL h w mask p := by
  have hne : ((rowMajor h w).filter fun q =>
      decide (q ∈ reachL h w mask p)) ≠ [] := by
    intro hemp
    have hp : p ∈ (rowMajor h w).filter fun q =>
        decide (q ∈ reachL h w mask p) := by
      rw [List.mem_filter]
      exact ⟨mem_rowMajor.mpr hb,
        decide_eq_true ((mem_reachL_iff hb hm).mpr Relation.ReflTransGen.refl)⟩
    rw [hemp] at hp
    exact absurd hp (List.not_mem_nil p)
  have hmem : componentRep h w mask p ∈ (rowMajor h w).filter fun q =>
      decide (q ∈ reachL h w mask p) := headD_mem_of_ne_nil hne
  rw [List.mem_filter] at hmem
  exact ⟨hmem.1, of_decide_eq_true hmem.2⟩

theorem componentRep_rtg {h w : ℕ} {mask : ℕ → ℕ → Bool} {p : Pos}
    (hb : inBounds h w p) (hm : mask p.1 p.2 = true) :
    Relation.ReflTransGen (maskAdj h w mask) p (componentRep h w mask p) :=
  (mem_reachL_iff hb hm).mp (componentRep_spec hb hm).2

theorem componentRep_elements {h w : ℕ} {mask : ℕ → ℕ → Bool} {p : Pos}
    (hb : inBounds h w p) (hm : mask p.1 p.2 = true) :
    inBounds h w (componentRep h w mask p) ∧
      mask (componentRep h w mask p).1 (componentRep h w mask p).2 = true :=
  rtg_maskAdj_elements hb hm (componentRep_rtg hb hm)

theorem componentRep_eq_of_rtg {h w : ℕ} {mask : ℕ → ℕ → Bool} {p p' : Pos}
    (hb : inBounds h w p) (hm : mask p.1 p.2 = true)
    (hpq : Relation.ReflTransGen (maskAdj h w mask) p p') :
    componentRep h w mask p = componentRep h w mask p' := by
  have hb' := (rtg_maskAdj_elements hb hm hpq).1
  have hm' := (rtg_maskAdj_elements hb hm hpq).2
  have hfeq : ((rowMajor h w).filter fun q => decide (q ∈ reachL h w mask p)) =
      ((rowMajor h w).filter fun q => decide (q ∈ reachL h w mask p')) := by
    apply List.filter_congr
    intro x hx
    have : (x ∈ reachL h w mask p) ↔ (x ∈ reachL h w mask p') := by
      rw [mem_reachL_iff hb hm, mem_reachL_iff hb' hm']
      constructor
      · intro hpx; exact (rtg_maskAdj_symm hb hm hpq).trans hpx
      · intro hpx; exact hpq.trans hpx
    simp only [this]
  have hne : ((rowMajor h w).filter fun q =>
      decide (q ∈ reachL h w mask p)) ≠ [] := by
    intro hemp
    have hp : p ∈ (rowMajor h w).filter fun q =>
        decide (q ∈ reachL h w mask p) := by
      rw [List.mem_filter]
      exact ⟨mem_rowMajor.mpr hb,
        decide_eq_true ((mem_reachL_iff hb hm).mpr Relation.ReflTransGen.refl)⟩
    rw [hemp] at hp
    exact absurd hp (List.not_mem_nil p)
  exact headD_eq_of_eq_ne_nil hfeq hne

theorem componentRep_idem {h w : ℕ} {mask : ℕ → ℕ → Bool} {p : Pos}
    (hb : inBounds h w p) (hm : mask p.1 p.2 = true) :
    componentRep h w mask (componentRep h w mask p) =
      componentRep h w mask p :=
  (componentRep_eq_of_rtg hb hm (componentRep_rtg hb hm)).symm

theorem componentRep_mem_repsList {h w : ℕ} {mask : ℕ → ℕ → Bool} {p : Pos}
    (hb : inBounds h w p) (hm : mask p.1 p.2 = true) :
    componentRep h w mask p ∈ repsList h w mask := by
  rw [repsList, List.mem_filter]
  refine ⟨(componentRep_spec hb hm).1, ?_⟩
  rw [Bool.and_eq_true]
  exact ⟨(componentRep_elements hb hm).2,
    decide_eq_true (componentRep_idem hb hm)⟩

theorem repsList_nodup (h w : ℕ) (mask : ℕ → ℕ → Bool) :
    (repsList h w mask).Nodup :=
  (rowMajor_nodup h w).filter _

theorem mem_repsList {h w : ℕ} {mask : ℕ → ℕ → Bool} {r : Pos}
    (hr : r ∈ repsList h w mask) :
    inBounds h w r ∧ mask r.1 r.2 = true ∧ componentRep h w mask r = r := by
  rw [repsList, List.mem_filter, Bool.and_eq_true] at hr
  exact ⟨mem_rowMajor.mp hr.1, hr.2.1, of_decide_eq_true hr.2.2⟩

theorem labelOf_pos_le {h w : ℕ} {mask : ℕ → ℕ → Bool} {p : Pos}
    (hb : inBounds h w p) (hm : mask p.1 p.2 = true) :
    1 ≤ labelOf h w mask p ∧ labelOf h w mask p ≤ numLabels h w mask := by
  rw [labelOf, if_pos hm, numLabels]
  have := posIdx_lt_length (componentRep_mem_repsList hb hm)
  omega

theorem labelOf_ne_zero_inv {h w : ℕ} {mask : ℕ → ℕ → Bool} {p : Pos}
    (hl : labelOf h w mask p ≠ 0) : mask p.1 p.2 = true := by
  by_contra hc
  rw [Bool.not_eq_true] at hc
  exact hl (labelOf_eq_zero hc)

theorem labelOf_attained {h w : ℕ} {mask : ℕ → ℕ → Bool} {i : ℕ}
    (h1 : 1 ≤ i) (h2 : i ≤ numLabels h w mask) :
    ∃ r, inBounds h w r ∧ mask r.1 r.2 = true ∧ labelOf h w mask r = i := by
  have hlt : i - 1 < (repsList h w mask).length := by
    rw [numLabels] at h2; omega
  obtain ⟨r, hget⟩ : ∃ r, (repsList h w mask).get? (i - 1) = some r := by
    rw [List.get?_eq_get hlt]
    exact ⟨_, rfl⟩
  have hrmem : r ∈ repsList h w mask := List.get?_mem hget
  obtain ⟨hbr, hmr, hrep⟩ := mem_repsList hrmem
  refine ⟨r, hbr, hmr, ?_⟩
  rw [labelOf, if_pos hmr, hrep,
    posIdx_eq_of_get? (repsList_nodup h w mask) hget]
  omega

theorem labelOf_eq_of_rtg {h w : ℕ} {mask : ℕ → ℕ → Bool} {p q : Pos}
    (hb : inBounds h w p) (hm : mask p.1 p.2 = true)
    (hpq : Relation.ReflTransGen (maskAdj h w mask) p q) :
    labelOf h w mask q = labelOf h w mask p := by
  obtain ⟨hbq, hmq⟩ := rtg_maskAdj_elements hb hm hpq
  rw [labelOf, labelOf, if_pos hm, if_pos hmq,
    componentRep_eq_of_rtg hb hm hpq]

/-! ### Squared Euclidean distances and the distance transform

`ndimage.distance_transform_edt` computes, for every true pixel, the
Euclidean distance to the nearest false pixel (false pixels get `0`).
The embedding carries exact squared distances; all downstream
comparisons (`> 0.5`, `>= max_dist`, flooding priority on `-dist`) are
strictly monotone in the squared distance.  When the input has no
false pixel at all the scipy routine returns large finite placeholder
distances; the embedding uses `(h + w)^2`, which exceeds every true
squared distance between in-bounds pixels. -/

/-- `|a - b|` on naturals. -/
def absDiff (a b : ℕ) : ℕ := (a - b) + (b - a)

/-- Squared Euclidean distance between two pixels. -/
def d2 (p q : Pos) : ℕ := absDiff p.1 q.1 ^ 2 + absDiff p.2 q.2 ^ 2

theorem d2_self (p : Pos) : d2 p p = 0 := by
  simp [d2, absDiff]

theorem d2_eq_zero_iff {p q : Pos} : d2 p q = 0 ↔ p = q := by
  cases p; cases q
  simp only [d2, absDiff, Prod.mk.injEq, Nat.add_eq_zero, Nat.pow_eq_zero]
  omega

/-- Squared distance transform of the boolean image `fg`: squared
distance from `p` to the nearest false in-bounds pixel (`0` on false
pixels, `(h+w)^2` when no false pixel exists). -/
def distSq (h w : ℕ) (fg : ℕ → ℕ → Bool) (p : Pos) : ℕ :=
  ((rowMajor h w).filter fun q => !fg q.1 q.2).foldl
    (fun m q => min m (d2 p q)) ((h + w) ^ 2)

theorem foldl_min_le_init {f : Pos → ℕ} {l : List Pos} {a : ℕ} :
    l.foldl (fun m q => min m (f q)) a ≤ a := by
  induction l generalizing a with
  | nil => exact le_rfl
  | cons x xs ih => exact le_trans ih (min_le_left _ _)

theorem foldl_min_le_mem {f : Pos → ℕ} {l : List Pos} {a : ℕ} {q : Pos}
    (hq : q ∈ l) : l.foldl (fun m q => min m (f q)) a ≤ f q := by
  induction l generalizing a with
  | nil => exact absurd hq (List.not_mem_nil q)
  | cons x xs ih =>
      rcases List.mem_cons.mp hq with rfl | hq'
      · rw [List.foldl_cons]
        exact le_trans foldl_min_le_init (min_le_right _ _)
      · exact ih hq'

theorem le_foldl_min {f : Pos → ℕ} {l : List Pos} {a c : ℕ} (ha : c ≤ a)
    (hl : ∀ q ∈ l, c ≤ f q) : c ≤ l.foldl (fun m q => min m (f q)) a := by
  induction l generalizing a with
  | nil => exact ha
  | cons x xs ih =>
      exact ih (le_min ha (hl x (List.mem_cons_self x xs)))
        (fun q hq => hl q (List.mem_cons_of_mem x hq))

theorem distSq_eq_zero_of_bg {h w : ℕ} {fg : ℕ → ℕ → Bool} {p : Pos}
    (hb : inBounds h w p) (hm : fg p.1 p.2 = false) :
    distSq h w fg p = 0 := by
  have hp : p ∈ (rowMajor h w).filter fun q => !fg q.1 q.2 := by
    rw [List.mem_filter]
    exact ⟨mem_rowMajor.mpr hb, by simp [hm]⟩
  have hle := @foldl_min_le_mem (fun q => d2 p q) _ ((h + w) ^ 2) _ hp
  simp only [d2_self] at hle
  rw [distSq]
  omega

theorem distSq_pos_of_fg {h w : ℕ} {fg : ℕ → ℕ → Bool} {p : Pos}
    (hb : inBounds h w p) (hm : fg p.1 p.2 = true) :
    1 ≤ distSq h w fg p := by
  rw [distSq]
  apply le_foldl_min
  · have : 1 ≤ h + w := by
      obtain ⟨h1, _⟩ := hb; omega
    calc 1 = 1 ^ 2 := by norm_num
    _ ≤ (h + w) ^ 2 := Nat.pow_le_pow_left this 2
  · intro q hq
    rw [List.mem_filter] at hq
    have hne : p ≠ q := by
      intro hc
      subst hc
      rw [hm] at hq
      simp at hq
    have := mt d2_eq_zero_iff.mp hne
    omega

theorem fg_of_distSq_pos {h w : ℕ} {fg : ℕ → ℕ → Bool} {p : Pos}
    (hb : inBounds h w p) (hd : 1 ≤ distSq h w fg p) : fg p.1 p.2 = true := by
  by_contra hc
  rw [Bool.not_eq_true] at hc
  rw [distSq_eq_zero_of_bg hb hc] at hd
  omega

/-! ### Sliding-window maximum filter (`ndimage.maximum_filter`)

Square window of odd side `2r+1`, boundary mode `"nearest"`: indices
outside the frame are clamped to the edge, which makes the multiset of
window values the same as clamping each window index into range. -/

/-- Window radius from `min_distance`: the source uses
`size = max(3, 2*min_distance + 1)` and the window reaches
`size // 2` pixels each way. -/
def winRadius (min_distance : ℕ) : ℕ := max 3 (2 * min_distance + 1) / 2

/-- The positions sampled by a `(2r+1) × (2r+1)` window centred at `p`
with nearest-edge index clamping. -/
def winPositions (h w r : ℕ) (p : Pos) : List Pos :=
  (List.range (2 * r + 1)).flatMap fun oy =>
    (List.range (2 * r + 1)).map fun ox =>
      (min (h - 1) (p.1 + oy - r), min (w - 1) (p.2 + ox - r))

/-- Sliding-window maximum of the squared distance map. -/
def maxFiltDistSq (h w r : ℕ) (fg : ℕ → ℕ → Bool) (p : Pos) : ℕ :=
  (winPositions h w r p).foldl (fun m q => max m (distSq h w fg q)) 0

/-! ### Marker-controlled watershed (`skimage.segmentation.watershed`)

`watershed(-dist, markers, mask=foreground)` is a priority flood: all
marker pixels are pushed with priority equal to their image value
(`-dist`), the heap pops the smallest image value first (largest
distance first), ties are broken by insertion age, and each popped
pixel labels its still-unlabelled in-mask 4-neighbours with its own
label and pushes them.  Pixels of the mask never reached from a marker
keep the value `0`.  The embedding stores the priority as the squared
distance (pop the largest first, which is the same order). -/

/-- A queue entry of the flooding: pixel, priority (squared distance;
larger floods first), insertion age (smaller pops first on ties). -/
structure WSEntry where
  pos : Pos
  prio : ℕ
  age : ℕ
deriving DecidableEq

/-- `a` pops strictly before `b`. -/
def entryBetter (a b : WSEntry) : Bool :=
  (decide (b.prio < a.prio)) || (decide (a.prio = b.prio) && decide (a.age < b.age))

/-- Remove the entry that pops next (max priority, then min age, then
earliest in the list) and return it with the remaining queue. -/
def popBest : List WSEntry → Option (WSEntry × List WSEntry)
  | [] => none
  | e :: es =>
      match popBest es with
      | none => some (e, [])
      | some (b, rest) =>
          if entryBetter b e then some (b, e :: rest) else some (e, es)

/-- State of the flood: current labels, pending queue, next age. -/
structure WSState where
  lab : Pos → ℕ
  queue : List WSEntry
  age : ℕ

/-- Accept one neighbour `n`: label it `labP` and push it with its own
image value (`-dist n`, stored as the squared distance) as priority. -/
def wsAccept (dist : Pos → ℕ) (labP : ℕ) (n : Pos) (st : WSState) : WSState :=
  { lab := Function.update st.lab n labP
    queue := st.queue ++ [⟨n, dist n, st.age⟩]
    age := st.age + 1 }

/-- Visit the 4-neighbours of a popped pixel carrying label `labP`:
still-unlabelled foreground neighbours receive `labP` and are pushed. -/
def wsVisit (fg : ℕ → ℕ → Bool) (dist : Pos → ℕ) (labP : ℕ) :
    List Pos → WSState → WSState
  | [], st => st
  | n :: rest, st =>
      if fg n.1 n.2 && decide (st.lab n = 0) then
        wsVisit fg dist labP rest (wsAccept dist labP n st)
      else wsVisit fg dist labP rest st

/-- One flood step: pop the best entry and visit its neighbours. -/
def wsStep (h w : ℕ) (fg : ℕ → ℕ → Bool) (dist : Pos → ℕ)
    (st : WSState) : WSState :=
  match popBest st.queue with
  | none => st
  | some (e, rest) =>
      wsVisit fg dist (st.lab e.pos) (nbrs h w e.pos)
        { st with queue := rest }

/-- Run the flood for at most `fuel` pops (the queue provably empties
within `3*h*w` pops, see `wsFlood_runs_out`). -/
def wsFlood (h w : ℕ) (fg : ℕ → ℕ → Bool) (dist : Pos → ℕ) :
    ℕ → WSState → (Pos → ℕ)
  | 0, st => st.lab
  | fuel + 1, st =>
      if st.queue = [] then st.lab
      else wsFlood h w fg dist fuel (wsStep h w fg dist st)

/-- Initial queue: one entry per marker pixel, in row-major order,
ages `i, i+1, ...`. -/
def wsInitQueue (dist : Pos → ℕ) : List Pos → ℕ → List WSEntry
  | [], _ => []
  | p :: rest, i => ⟨p, dist p, i⟩ :: wsInitQueue dist rest (i + 1)

/-- Initial state: labels are the markers; every marker pixel queued. -/
def wsInitState (h w : ℕ) (dist : Pos → ℕ) (markers : Pos → ℕ) : WSState :=
  let marked := (rowMajor h w).filter fun p => decide (markers p ≠ 0)
  { lab := markers
    queue := wsInitQueue dist marked 0
    age := marked.length }

/-- The labelling produced by the full marker-controlled flood. -/
def watershedFlood (h w : ℕ) (fg : ℕ → ℕ → Bool) (dist : Pos → ℕ)
    (markers : Pos → ℕ) : Pos → ℕ :=
  wsFlood h w fg dist (3 * (h * w)) (wsInitState h w dist markers)

theorem popBest_none_iff {l : List WSEntry} : popBest l = none ↔ l = [] := by
  cases l with
  | nil => simp [popBest]
  | cons e es =>
      rw [popBest]
      constructor
      · intro hc
        cases hpb : popBest es with
        | none => rw [hpb] at hc; simp at hc
        | some b => rw [hpb] at hc; cases b; dsimp at hc; split at hc <;> simp at hc
      · intro hc; cases hc

theorem popBest_spec {l : List WSEntry} {e : WSEntry} {rest : List WSEntry}
    (hpb : popBest l = some (e, rest)) :
    e ∈ l ∧ rest.length + 1 = l.length ∧ (∀ x ∈ rest, x ∈ l) ∧
      (∀ x ∈ l, x = e ∨ x ∈ rest) := by
  induction l generalizing e rest with
  | nil => simp [popBest] at hpb
  | cons a es ih =>
      rw [popBest] at hpb
      cases hes : popBest es with
      | none =>
          rw [hes] at hpb
          have : a = e ∧ rest = [] := by
            simp only [Option.some.injEq, Prod.mk.injEq] at hpb
            exact ⟨hpb.1, hpb.2.symm⟩
          obtain ⟨rfl, rfl⟩ := this
          have hnil : es = [] := popBest_none_iff.mp hes
          subst hnil
          refine ⟨List.mem_cons_self a [], by simp, by simp, ?_⟩
          intro x hx
          rcases List.mem_cons.mp hx with rfl | hc
          · exact Or.inl rfl
          · exact absurd hc (List.not_mem_nil x)
      | some br =>
          obtain ⟨b, brest⟩ := br
          rw [hes] at hpb
          obtain ⟨hbmem, hblen, hbsub, hbcompl⟩ := ih hes
          dsimp at hpb
          split at hpb
          · have : b = e ∧ a :: brest = rest := by
              simp only [Option.some.injEq, Prod.mk.injEq] at hpb
              exact ⟨hpb.1, hpb.2⟩
            obtain ⟨rfl, rfl⟩ := this
            refine ⟨List.mem_cons_of_mem a hbmem, by simp [← hblen], ?_, ?_⟩
            · intro x hx
              rcases List.mem_cons.mp hx with rfl | hc
              · exact List.mem_cons_self x es
              · exact List.mem_cons_of_mem a (hbsub x hc)
            · intro x hx
              rcases List.mem_cons.mp hx with rfl | hc
              · exact Or.inr (List.mem_cons_self x brest)
              · rcases hbcompl x hc with rfl | hr
                · exact Or.inl rfl
                · exact Or.inr (List.mem_cons_of_mem a hr)
          · have : a = e ∧ es = rest := by
              simp only [Option.some.injEq, Prod.mk.injEq] at hpb
              exact ⟨hpb.1, hpb.2⟩
            obtain ⟨rfl, rfl⟩ := this
            refine ⟨List.mem_cons_self a _, by simp, ?_, ?_⟩
            · intro x hx; exact List.mem_cons_of_mem a hx
            · intro x hx
              rcases List.mem_cons.mp hx with rfl | hc
              · exact Or.inl rfl
              · exact Or.inr hc


theorem wsAccept_lab (dist : Pos → ℕ) (labP : ℕ) (n : Pos) (st : WSState)
    (p : Pos) : (wsAccept dist labP n st).lab p =
      if p = n then labP else st.lab p := by
  rw [wsAccept]
  dsimp only
  rcases Decidable.em (p = n) with rfl | hne
  · rw [Function.update_same, if_pos rfl]
  · rw [Function.update_noteq hne, if_neg hne]

theorem wsVisit_lab_cases (fg : ℕ → ℕ → Bool) (dist : Pos → ℕ) (labP : ℕ) :
    ∀ (L : List Pos) (st : WSState) (p : Pos),
      (wsVisit fg dist labP L st).lab p = st.lab p ∨
      (st.lab p = 0 ∧ (wsVisit fg dist labP L st).lab p = labP ∧
        p ∈ L ∧ fg p.1 p.2 = true) := by
  intro L
  induction L with
  | nil => intro st p; exact Or.inl rfl
  | cons n rest ih =>
      intro st p
      rw [wsVisit]
      split
      · next hguard =>
          rw [Bool.and_eq_true, decide_eq_true_iff] at hguard
          rcases ih (wsAccept dist labP n st) p with hsame | ⟨hz, hv, hmem, hfg⟩
          · rw [hsame, wsAccept_lab]
            rcases Decidable.em (p = n) with rfl | hne
            · rw [if_pos rfl]
              exact Or.inr ⟨hguard.2, rfl, List.mem_cons_self p rest, hguard.1⟩
            · rw [if_neg hne]
              exact Or.inl rfl
          · rw [wsAccept_lab] at hz
            rcases Decidable.em (p = n) with rfl | hne
            · exact Or.inr ⟨hguard.2, hv, List.mem_cons_self p rest, hguard.1⟩
            · rw [if_neg hne] at hz
              exact Or.inr ⟨hz, hv, List.mem_cons_of_mem n hmem, hfg⟩
      · next hguard =>
          rcases ih st p with hsame | ⟨hz, hv, hmem, hfg⟩
          · exact Or.inl hsame
          · exact Or.inr ⟨hz, hv, List.mem_cons_of_mem n hmem, hfg⟩

theorem wsVisit_lab_preserved {fg : ℕ → ℕ → Bool} {dist : Pos → ℕ} {labP : ℕ}
    {L : List Pos} {st : WSState} {p : Pos} (hp : st.lab p ≠ 0) :
    (wsVisit fg dist labP L st).lab p = st.lab p := by
  rcases wsVisit_lab_cases fg dist labP L st p with hsame | ⟨hz, _, _, _⟩
  · exact hsame
  · exact absurd hz hp

theorem wsVisit_lab_nonzero {fg : ℕ → ℕ → Bool} {dist : Pos → ℕ} {labP : ℕ}
    {L : List Pos} {st : WSState} {p : Pos} (hp : st.lab p ≠ 0) :
    (wsVisit fg dist labP L st).lab p ≠ 0 := by
  rw [wsVisit_lab_preserved hp]; exact hp

theorem wsVisit_queue_suffix (fg : ℕ → ℕ → Bool) (dist : Pos → ℕ) (labP : ℕ) :
    ∀ (L : List Pos) (st : WSState),
      ∃ tail, (wsVisit fg dist labP L st).queue = st.queue ++ tail := by
  intro L
  induction L with
  | nil => intro st; exact ⟨[], by simp [wsVisit]⟩
  | cons n rest ih =>
      intro st
      rw [wsVisit]
      split
      · obtain ⟨tail, htail⟩ := ih (wsAccept dist labP n st)
        refine ⟨[⟨n, dist n, st.age⟩] ++ tail, ?_⟩
        rw [htail, wsAccept]
        simp
      · exact ih st

theorem wsVisit_queue_mem {fg : ℕ → ℕ → Bool} {dist : Pos → ℕ} {labP : ℕ}
    {L : List Pos} {st : WSState} {e : WSEntry} (he : e ∈ st.queue) :
    e ∈ (wsVisit fg dist labP L st).queue := by
  obtain ⟨tail, htail⟩ := wsVisit_queue_suffix fg dist labP L st
  rw [htail]
  exact List.mem_append_left tail he

theorem wsVisit_queue_lab {fg : ℕ → ℕ → Bool} {dist : Pos → ℕ} {labP : ℕ}
    (hlabP : labP ≠ 0) :
    ∀ (L : List Pos) (st : WSState),
      (∀ e ∈ st.queue, st.lab e.pos ≠ 0) →
      ∀ e ∈ (wsVisit fg dist labP L st).queue,
        (wsVisit fg dist labP L st).lab e.pos ≠ 0 := by
  intro L
  induction L with
  | nil => intro st hq; simpa [wsVisit] using hq
  | cons n rest ih =>
      intro st hq
      rw [wsVisit]
      split
      · apply ih
        intro e he
        rw [wsAccept_lab]
        rcases Decidable.em (e.pos = n) with hpn | hpn
        · rw [if_pos hpn]; exact hlabP
        · rw [if_neg hpn]
          rw [wsAccept] at he
          dsimp only at he
          rcases List.mem_append.mp he with hold | hnew
          · exact hq e hold
          · rw [List.mem_singleton] at hnew
            subst hnew
            exact absurd rfl hpn
      · exact ih st hq

theorem wsVisit_new_queued {fg : ℕ → ℕ → Bool} {dist : Pos → ℕ} {labP : ℕ} :
    ∀ (L : List Pos) (st : WSState) (p : Pos),
      st.lab p = 0 → (wsVisit fg dist labP L st).lab p ≠ 0 →
      ∃ e ∈ (wsVisit fg dist labP L st).queue, e.pos = p := by
  intro L
  induction L with
  | nil => intro st p h0 hnz; exact absurd h0 hnz
  | cons n rest ih =>
      intro st p h0 hnz
      rw [wsVisit] at hnz ⊢
      split at hnz
      · next hguard =>
          rw [if_pos hguard]
          rcases Decidable.em (p = n) with rfl | hne
          · refine ⟨⟨p, dist p, st.age⟩, ?_, rfl⟩
            apply wsVisit_queue_mem
            rw [wsAccept]
            simp
          · have h0' : (wsAccept dist labP n st).lab p = 0 := by
              rw [wsAccept_lab, if_neg hne]; exact h0
            exact ih _ p h0' hnz
      · next hguard =>
          rw [if_neg hguard]
          exact ih st p h0 hnz

theorem wsVisit_all_labeled {fg : ℕ → ℕ → Bool} {dist : Pos → ℕ} {labP : ℕ}
    (hlabP : labP ≠ 0) :
    ∀ (L : List Pos) (st : WSState),
      ∀ n ∈ L, fg n.1 n.2 = true → (wsVisit fg dist labP L st).lab n ≠ 0 := by
  intro L
  induction L with
  | nil => intro st n hn; exact absurd hn (List.not_mem_nil n)
  | cons n0 rest ih =>
      intro st n hn hfg
      rw [wsVisit]
      rcases List.mem_cons.mp hn with rfl | hmem
      · split
        · apply wsVisit_lab_nonzero
          rw [wsAccept_lab, if_pos rfl]
          exact hlabP
        · next hguard =>
            apply wsVisit_lab_nonzero
            rw [Bool.and_eq_true, decide_eq_true_iff] at hguard
            intro hc
            exact hguard ⟨hfg, hc⟩
      · split
        · exact ih _ n hmem hfg
        · exact ih st n hmem hfg

/-- Number of in-bounds pixels still unlabelled. -/
def zeroCount (h w : ℕ) (lab : Pos → ℕ) : ℕ :=
  ((rowMajor h w).filter fun p => decide (lab p = 0)).length

theorem zeroCount_update {h w : ℕ} {lab : Pos → ℕ} {n : Pos} {v : ℕ}
    (hn : n ∈ rowMajor h w) (h0 : lab n = 0) (hv : v ≠ 0) :
    zeroCount h w (Function.update lab n v) + 1 = zeroCount h w lab := by
  obtain ⟨l1, l2, hsplit⟩ := List.append_of_mem hn
  have hnd : (rowMajor h w).Nodup := rowMajor_nodup h w
  rw [hsplit] at hnd
  have hn1 : n ∉ l1 := by
    intro hc
    rw [List.nodup_append] at hnd
    exact hnd.2.2 hc (List.mem_cons_self n l2)
  have hn2 : n ∉ l2 := by
    rw [List.nodup_append] at hnd
    exact (List.nodup_cons.mp hnd.2.1).1
  have hcong1 : ∀ lst : List Pos, n ∉ lst →
      lst.filter (fun p => decide (Function.update lab n v p = 0)) =
      lst.filter (fun p => decide (lab p = 0)) := by
    intro lst hnl
    apply List.filter_congr
    intro x hx
    have hxn : x ≠ n := fun hc => hnl (hc ▸ hx)
    rw [Function.update_noteq hxn]
  rw [zeroCount, zeroCount, hsplit, List.filter_append, List.filter_append,
    List.filter_cons, List.filter_cons, hcong1 l1 hn1, hcong1 l2 hn2]
  rw [Function.update_same]
  simp only [h0, hv, decide_eq_true_eq]
  simp only [if_true, if_false, List.length_append, List.length_cons]
  omega

theorem wsVisit_measure {fg : ℕ → ℕ → Bool} {dist : Pos → ℕ} {labP : ℕ}
    {h w : ℕ} (hlabP : labP ≠ 0) :
    ∀ (L : List Pos) (st : WSState), (∀ n ∈ L, n ∈ rowMajor h w) →
      2 * zeroCount h w (wsVisit fg dist labP L st).lab +
        (wsVisit fg dist labP L st).queue.length ≤
      2 * zeroCount h w st.lab + st.queue.length := by
  intro L
  induction L with
  | nil => intro st _; exact le_rfl
  | cons n rest ih =>
      intro st hL
      rw [wsVisit]
      split
      · next hguard =>
          rw [Bool.and_eq_true, decide_eq_true_iff] at hguard
          have hcount := @zeroCount_update h w st.lab n labP
            (hL n (List.mem_cons_self n rest)) hguard.2 hlabP
          have hql : (wsAccept dist labP n st).queue.length =
              st.queue.length + 1 := by
            rw [wsAccept]; simp
          have hzl : zeroCount h w (wsAccept dist labP n st).lab + 1 =
              zeroCount h w st.lab := by
            rw [wsAccept]; exact hcount
          have := ih (wsAccept dist labP n st)
            (fun x hx => hL x (List.mem_cons_of_mem n hx))
          omega
      · exact ih st (fun x hx => hL x (List.mem_cons_of_mem n hx))

/-- The flooding invariant: queued pixels are labelled; labelled
pixels are in-bounds foreground; every label is some marker's label
with a foreground 4-path from that marker; every labelled pixel is
either still queued or has all its foreground neighbours labelled. -/
def WSInv (h w : ℕ) (fg : ℕ → ℕ → Bool) (markers : Pos → ℕ)
    (st : WSState) : Prop :=
  (∀ e ∈ st.queue, st.lab e.pos ≠ 0) ∧
  (∀ p, st.lab p ≠ 0 → inBounds h w p ∧ fg p.1 p.2 = true) ∧
  (∀ p, st.lab p ≠ 0 → ∃ m, markers m ≠ 0 ∧ st.lab p = markers m ∧
      Relation.ReflTransGen (maskAdj h w fg) m p) ∧
  (∀ p, st.lab p ≠ 0 →
      (∃ e ∈ st.queue, e.pos = p) ∨
      ∀ n ∈ nbrs h w p, fg n.1 n.2 = true → st.lab n ≠ 0)

theorem wsStep_spec {h w : ℕ} {fg : ℕ → ℕ → Bool} {dist : Pos → ℕ}
    {markers : Pos → ℕ} {st : WSState}
    (hInv : WSInv h w fg markers st) (hne : st.queue ≠ []) :
    WSInv h w fg markers (wsStep h w fg dist st) ∧
    2 * zeroCount h w (wsStep h w fg dist st).lab +
      (wsStep h w fg dist st).queue.length + 1 ≤
      2 * zeroCount h w st.lab + st.queue.length ∧
    (∀ p, st.lab p ≠ 0 → (wsStep h w fg dist st).lab p = st.lab p) := by
  obtain ⟨hInv1, hInv2, hInv3, hInv5⟩ := hInv
  obtain ⟨er, hpb⟩ : ∃ er, popBest st.queue = some er := by
    cases hpb : popBest st.queue with
    | none => exact absurd (popBest_none_iff.mp hpb) hne
    | some er => exact ⟨er, rfl⟩
  obtain ⟨e, rest⟩ := er
  obtain ⟨hemem, hlen, hsub, hcompl⟩ := popBest_spec hpb
  have hstep : wsStep h w fg dist st =
      wsVisit fg dist (st.lab e.pos) (nbrs h w e.pos)
        { st with queue := rest } := by
    rw [wsStep, hpb]
  set st0 : WSState := { st with queue := rest } with hst0
  have hlabP : st.lab e.pos ≠ 0 := hInv1 e hemem
  obtain ⟨hbe, hfge⟩ := hInv2 e.pos hlabP
  have hLb : ∀ n ∈ nbrs h w e.pos, n ∈ rowMajor h w := fun n hn =>
    mem_rowMajor.mpr (nbrs_inBounds hbe hn)
  have hst0lab : st0.lab = st.lab := rfl
  refine ⟨⟨?_, ?_, ?_, ?_⟩, ?_, ?_⟩
  · -- queued pixels labelled
    rw [hstep]
    apply wsVisit_queue_lab hlabP
    intro x hx
    exact hInv1 x (hsub x hx)
  · -- labelled pixels are in-bounds foreground
    rw [hstep]
    intro p hp
    rcases wsVisit_lab_cases fg dist (st.lab e.pos) (nbrs h w e.pos) st0 p
      with hsame | ⟨_, _, hmem, hfg⟩
    · rw [hsame] at hp
      exact hInv2 p hp
    · exact ⟨nbrs_inBounds hbe hmem, hfg⟩
  · -- provenance of labels
    rw [hstep]
    intro p hp
    rcases wsVisit_lab_cases fg dist (st.lab e.pos) (nbrs h w e.pos) st0 p
      with hsame | ⟨_, hval, hmem, hfg⟩
    · rw [hsame] at hp ⊢
      exact hInv3 p hp
    · obtain ⟨m, hm0, hmv, hmr⟩ := hInv3 e.pos hlabP
      exact ⟨m, hm0, by rw [hval, hmv], hmr.tail ⟨hmem, hfg⟩⟩
  · -- frontier property
    rw [hstep]
    intro p hp
    rcases Decidable.em (p = e.pos) with rfl | hpe
    · right
      intro n hn hfgn
      exact wsVisit_all_labeled hlabP (nbrs h w e.pos) st0 n hn hfgn
    · rcases wsVisit_lab_cases fg dist (st.lab e.pos) (nbrs h w e.pos) st0 p
        with hsame | ⟨hz, _, _, _⟩
      · rw [hsame] at hp
        rcases hInv5 p hp with ⟨e', he'mem, he'pos⟩ | hclosed
        · left
          refine ⟨e', ?_, he'pos⟩
          apply wsVisit_queue_mem
          rcases hcompl e' he'mem with rfl | hr
          · exact absurd he'pos.symm hpe
          · exact hr
        · right
          intro n hn hfgn
          exact wsVisit_lab_nonzero (hclosed n hn hfgn)
      · left
        exact wsVisit_new_queued (nbrs h w e.pos) st0 p hz hp
  · -- measure decreases
    rw [hstep]
    have hm := @wsVisit_measure fg dist (st.lab e.pos) h w hlabP
      (nbrs h w e.pos) st0 hLb
    have hq0 : st0.queue.length + 1 = st.queue.length := hlen
    have hz0 : zeroCount h w st0.lab = zeroCount h w st.lab := rfl
    omega
  · -- old labels preserved
    rw [hstep]
    intro p hp
    exact wsVisit_lab_preserved hp

theorem wsFlood_spec {h w : ℕ} {fg : ℕ → ℕ → Bool} {dist : Pos → ℕ}
    {markers : Pos → ℕ} :
    ∀ (fuel : ℕ) (st : WSState), WSInv h w fg markers st →
      2 * zeroCount h w st.lab + st.queue.length ≤ fuel →
      ∃ st', wsFlood h w fg dist fuel st = st'.lab ∧
        WSInv h w fg markers st' ∧ st'.queue = [] ∧
        (∀ p, st.lab p ≠ 0 → st'.lab p = st.lab p) := by
  intro fuel
  induction fuel with
  | zero =>
      intro st hInv hμ
      have hq : st.queue = [] := by
        have := List.length_eq_zero.mp (by omega : st.queue.length = 0)
        exact this
      exact ⟨st, rfl, hInv, hq, fun p _ => rfl⟩
  | succ fuel ih =>
      intro st hInv hμ
      rw [wsFlood]
      split
      · next hq => exact ⟨st, rfl, hInv, hq, fun p _ => rfl⟩
      · next hq =>
          obtain ⟨hInv', hμ', hmono⟩ := @wsStep_spec h w fg dist markers st hInv hq
          obtain ⟨st', heq, hInv'', hq', hmono'⟩ :=
            ih (wsStep h w fg dist st) hInv' (by omega)
          refine ⟨st', heq, hInv'', hq', ?_⟩
          intro p hp
          rw [hmono' p (by rw [hmono p hp]; exact hp), hmono p hp]

theorem mem_wsInitQueue_pos {dist : Pos → ℕ} :
    ∀ (l : List Pos) (i : ℕ) (e : WSEntry),
      e ∈ wsInitQueue dist l i → e.pos ∈ l := by
  intro l
  induction l with
  | nil => intro i e he; simp [wsInitQueue] at he
  | cons p rest ih =>
      intro i e he
      rw [wsInitQueue] at he
      rcases List.mem_cons.mp he with rfl | hr
      · exact List.mem_cons_self p rest
      · exact List.mem_cons_of_mem p (ih (i + 1) e hr)

theorem pos_mem_wsInitQueue {dist : Pos → ℕ} :
    ∀ (l : List Pos) (i : ℕ) (p : Pos), p ∈ l →
      ∃ e ∈ wsInitQueue dist l i, e.pos = p := by
  intro l
  induction l with
  | nil => intro i p hp; exact absurd hp (List.not_mem_nil p)
  | cons q rest ih =>
      intro i p hp
      rw [wsInitQueue]
      rcases List.mem_cons.mp hp with rfl | hr
      · exact ⟨⟨p, dist p, i⟩, List.mem_cons_self _ _, rfl⟩
      · obtain ⟨e, hmem, hpos⟩ := ih (i + 1) p hr
        exact ⟨e, List.mem_cons_of_mem _ hmem, hpos⟩

theorem wsInitQueue_length {dist : Pos → ℕ} :
    ∀ (l : List Pos) (i : ℕ), (wsInitQueue dist l i).length = l.length := by
  intro l
  induction l with
  | nil => intro i; rfl
  | cons q rest ih => intro i; rw [wsInitQueue]; simp [ih]

theorem wsInit_inv {h w : ℕ} {fg : ℕ → ℕ → Bool} {dist : Pos → ℕ}
    {markers : Pos → ℕ}
    (hmb : ∀ p, markers p ≠ 0 → inBounds h w p ∧ fg p.1 p.2 = true) :
    WSInv h w fg markers (wsInitState h w dist markers) := by
  refine ⟨?_, ?_, ?_, ?_⟩
  · intro e he
    rw [wsInitState] at he ⊢
    dsimp only at he ⊢
    have := mem_wsInitQueue_pos _ _ e he
    rw [List.mem_filter] at this
    exact of_decide_eq_true this.2
  · intro p hp
    exact hmb p hp
  · intro p hp
    exact ⟨p, hp, rfl, Relation.ReflTransGen.refl⟩
  · intro p hp
    left
    rw [wsInitState]
    dsimp only
    apply pos_mem_wsInitQueue
    rw [List.mem_filter]
    exact ⟨mem_rowMajor.mpr (hmb p hp).1, decide_eq_true hp⟩

theorem rtg_closed_nonzero {h w : ℕ} {fg : ℕ → ℕ → Bool} {lab : Pos → ℕ}
    (hclosed : ∀ q, lab q ≠ 0 → ∀ n ∈ nbrs h w q, fg n.1 n.2 = true →
      lab n ≠ 0)
    {m p : Pos} (hm : lab m ≠ 0)
    (hpath : Relation.ReflTransGen (maskAdj h w fg) m p) : lab p ≠ 0 := by
  induction hpath with
  | refl => exact hm
  | tail hst hstep ih => exact hclosed _ ih _ hstep.1 hstep.2

theorem watershedFlood_spec {h w : ℕ} {fg : ℕ → ℕ → Bool} {dist : Pos → ℕ}
    {markers : Pos → ℕ}
    (hmb : ∀ p, markers p ≠ 0 → inBounds h w p ∧ fg p.1 p.2 = true) :
    (∀ p, watershedFlood h w fg dist markers p ≠ 0 →
       inBounds h w p ∧ fg p.1 p.2 = true ∧
       ∃ m, markers m ≠ 0 ∧ watershedFlood h w fg dist markers p = markers m ∧
         Relation.ReflTransGen (maskAdj h w fg) m p) ∧
    (∀ p, markers p ≠ 0 → watershedFlood h w fg dist markers p = markers p) ∧
    (∀ p m, markers m ≠ 0 → Relation.ReflTransGen (maskAdj h w fg) m p →
       watershedFlood h w fg dist markers p ≠ 0) := by
  have hμ : 2 * zeroCount h w (wsInitState h w dist markers).lab +
      (wsInitState h w dist markers).queue.length ≤ 3 * (h * w) := by
    have h1 : zeroCount h w (wsInitState h w dist markers).lab ≤ h * w := by
      rw [zeroCount]
      calc ((rowMajor h w).filter fun p =>
          decide ((wsInitState h w dist markers).lab p = 0)).length
          ≤ (rowMajor h w).length := List.length_filter_le _ _
        _ = h * w := rowMajor_length h w
    have h2 : (wsInitState h w dist markers).queue.length ≤ h * w := by
      rw [wsInitState]
      dsimp only
      rw [wsInitQueue_length]
      calc ((rowMajor h w).filter fun p => decide (markers p ≠ 0)).length
          ≤ (rowMajor h w).length := List.length_filter_le _ _
        _ = h * w := rowMajor_length h w
    omega
  obtain ⟨st', heq, hInv', hq', hmono⟩ :=
    @wsFlood_spec h w fg dist markers (3 * (h * w))
      (wsInitState h w dist markers) (wsInit_inv hmb) hμ
  have hout : watershedFlood h w fg dist markers = st'.lab := heq
  obtain ⟨hInv1, hInv2, hInv3, hInv5⟩ := hInv'
  have hmarkers : ∀ p, markers p ≠ 0 → st'.lab p = markers p := by
    intro p hp
    have : (wsInitState h w dist markers).lab p = markers p := rfl
    rw [hmono p (by rw [this]; exact hp), this]
  refine ⟨?_, ?_, ?_⟩
  · intro p hp
    rw [hout] at hp ⊢
    obtain ⟨hb, hfg⟩ := hInv2 p hp
    obtain ⟨m, hm0, hval, hpath⟩ := hInv3 p hp
    exact ⟨hb, hfg, m, hm0, hval, hpath⟩
  · intro p hp
    rw [hout]
    exact hmarkers p hp
  · intro p m hm0 hpath
    rw [hout]
    have hclosed : ∀ q, st'.lab q ≠ 0 →
        ∀ n ∈ nbrs h w q, fg n.1 n.2 = true → st'.lab n ≠ 0 := by
      intro q hq n hn hfgn
      rcases hInv5 q hq with ⟨e, hemem, _⟩ | hcl
      · rw [hq'] at hemem
        exact absurd hemem (List.not_mem_nil e)
      · exact hcl n hn hfgn
    have hm' : st'.lab m ≠ 0 := by
      rw [hmarkers m hm0]; exact hm0
    exact rtg_closed_nonzero hclosed hm' hpath

/-! ### `_segment_frame_watershed`

Source (`core.py` lines 46-69):
```
fluo = np.asarray(fluo, dtype=np.float64)
if sigma > 0: fluo = ndimage.gaussian_filter(fluo, sigma=sigma, mode="nearest")
foreground = fluo > (background + margin)
if not np.any(foreground): return zeros
dist = ndimage.distance_transform_edt(foreground)
size = max(3, 2 * min_distance + 1)
max_dist = ndimage.maximum_filter(dist, size=size, mode="nearest")
peak_mask = (dist >= max_dist) & (dist > 0.5)
markers, n_seeds = ndimage.label(peak_mask)
if n_seeds == 0: return zeros
ws = watershed(-dist, markers, mask=foreground)
return np.asarray(ws, dtype=np.uint32)
```
The (float) Gaussian blur is the opaque parameter `blur`, applied iff
`sigma > 0`; `dist > 0.5` on integer-valued squared distances is
`1 ≤ distSq`; the `uint32` cast is value-preserving because labels are
bounded by the pixel count of the frame. -/

/-- `if sigma > 0: fluo = gaussian_filter(fluo, sigma)` with the blur
as an opaque library function. -/
def blurStep (blur : (ℕ → ℕ → ℚ) → (ℕ → ℕ → ℚ)) (sigma : ℚ)
    (fluo : ℕ → ℕ → ℚ) : ℕ → ℕ → ℚ :=
  if 0 < sigma then blur fluo else fluo

/-- `foreground = fluo > (background + margin)` (on the working,
possibly blurred, frame). -/
def wsFg (background margin : ℚ) (g : ℕ → ℕ → ℚ) : ℕ → ℕ → Bool :=
  fun y x => decide (background + margin < g y x)

/-- `peak_mask = (dist >= max_dist) & (dist > 0.5)`, restricted to the
frame (only in-bounds pixels exist in the array). -/
def wsPeakMask (h w min_distance : ℕ) (fg : ℕ → ℕ → Bool) :
    ℕ → ℕ → Bool :=
  fun y x =>
    decide (inBounds h w (y, x)) &&
    decide (maxFiltDistSq h w (winRadius min_distance) fg (y, x) ≤
      distSq h w fg (y, x)) &&
    decide (1 ≤ distSq h w fg (y, x))

/-- Steps 3-7 of the watershed segmenter, starting from the computed
foreground predicate: early zero returns, distance transform, window
maximum, seed labeling, flood. -/
def watershedOnFg (h w min_distance : ℕ) (fg : ℕ → ℕ → Bool) :
    ℕ → ℕ → ℕ :=
  if (rowMajor h w).all (fun p => !fg p.1 p.2) then fun _ _ => 0
  else if numLabels h w (wsPeakMask h w min_distance fg) = 0 then fun _ _ => 0
  else fun y x =>
    watershedFlood h w fg (distSq h w fg)
      (labelOf h w (wsPeakMask h w min_distance fg)) (y, x)

/-- The watershed segmenter `_segment_frame_watershed`. -/
def segment_frame_watershed (h w : ℕ)
    (blur : (ℕ → ℕ → ℚ) → (ℕ → ℕ → ℚ)) (sigma background margin : ℚ)
    (min_distance : ℕ) (fluo : ℕ → ℕ → ℚ) : ℕ → ℕ → ℕ :=
  watershedOnFg h w min_distance
    (wsFg background margin (blurStep blur sigma fluo))

theorem wsPeakMask_spec {h w min_distance : ℕ} {fg : ℕ → ℕ → Bool}
    {y x : ℕ} (hm : wsPeakMask h w min_distance fg y x = true) :
    inBounds h w (y, x) ∧ fg y x = true := by
  rw [wsPeakMask, Bool.and_eq_true, Bool.and_eq_true] at hm
  obtain ⟨⟨hbnd, _⟩, hd⟩ := hm
  have hb := of_decide_eq_true hbnd
  exact ⟨hb, fg_of_distSq_pos hb (of_decide_eq_true hd)⟩

theorem wsMarkers_bounds {h w min_distance : ℕ} {fg : ℕ → ℕ → Bool} :
    ∀ p, labelOf h w (wsPeakMask h w min_distance fg) p ≠ 0 →
      inBounds h w p ∧ fg p.1 p.2 = true := by
  intro p hp
  exact wsPeakMask_spec (labelOf_ne_zero_inv hp)

theorem watershedOnFg_sound {h w min_distance : ℕ} {fg : ℕ → ℕ → Bool}
    {y x : ℕ} (hnz : watershedOnFg h w min_distance fg y x ≠ 0) :
    inBounds h w (y, x) ∧ fg y x = true ∧
      1 ≤ watershedOnFg h w min_distance fg y x ∧
      watershedOnFg h w min_distance fg y x ≤
        numLabels h w (wsPeakMask h w min_distance fg) ∧
      ∃ m, labelOf h w (wsPeakMask h w min_distance fg) m ≠ 0 ∧
        Relation.ReflTransGen (maskAdj h w fg) m (y, x) := by
  rw [watershedOnFg] at hnz ⊢
  split at hnz
  · exact absurd rfl hnz
  · split at hnz
    · exact absurd rfl hnz
    · obtain ⟨hws1, _, _⟩ := @watershedFlood_spec h w fg (distSq h w fg)
        (labelOf h w (wsPeakMask h w min_distance fg)) wsMarkers_bounds
      obtain ⟨hb, hfg, m, hm0, hval, hpath⟩ := hws1 (y, x) hnz
      have hm_range := labelOf_pos_le (wsMarkers_bounds m hm0).1
        (labelOf_ne_zero_inv hm0)
      rw [if_neg (by assumption), if_neg (by assumption)]
      refine ⟨hb, hfg, ?_, ?_, m, hm0, hpath⟩
      · show 1 ≤ watershedFlood h w fg (distSq h w fg)
          (labelOf h w (wsPeakMask h w min_distance fg)) (y, x)
        rw [hval]; exact hm_range.1
      · show watershedFlood h w fg (distSq h w fg)
          (labelOf h w (wsPeakMask h w min_distance fg)) (y, x) ≤ _
        rw [hval]; exact hm_range.2

theorem watershedOnFg_complete {h w min_distance : ℕ} {fg : ℕ → ℕ → Bool}
    {y x : ℕ} {m : Pos}
    (hm0 : labelOf h w (wsPeakMask h w min_distance fg) m ≠ 0)
    (hpath : Relation.ReflTransGen (maskAdj h w fg) m (y, x)) :
    watershedOnFg h w min_distance fg y x ≠ 0 := by
  obtain ⟨hbm, hfgm⟩ := wsMarkers_bounds m hm0
  have hany : ¬((rowMajor h w).all fun p => !fg p.1 p.2) = true := by
    intro hall
    rw [List.all_eq_true] at hall
    have := hall m (mem_rowMajor.mpr hbm)
    rw [hfgm] at this
    simp at this
  have hN : ¬numLabels h w (wsPeakMask h w min_distance fg) = 0 := by
    have := labelOf_pos_le hbm (labelOf_ne_zero_inv hm0)
    omega
  rw [watershedOnFg, if_neg hany, if_neg hN]
  obtain ⟨_, _, hws3⟩ := @watershedFlood_spec h w fg (distSq h w fg)
    (labelOf h w (wsPeakMask h w min_distance fg)) wsMarkers_bounds
  exact hws3 (y, x) m hm0 hpath

theorem watershedOnFg_no_foreground {h w min_distance : ℕ}
    {fg : ℕ → ℕ → Bool}
    (hall : ((rowMajor h w).all fun p => !fg p.1 p.2) = true) :
    watershedOnFg h w min_distance fg = fun _ _ => 0 := by
  rw [watershedOnFg, if_pos hall]

theorem watershedOnFg_no_seeds {h w min_distance : ℕ} {fg : ℕ → ℕ → Bool}
    (hN : numLabels h w (wsPeakMask h w min_distance fg) = 0) :
    watershedOnFg h w min_distance fg = fun _ _ => 0 := by
  rw [watershedOnFg, if_pos hN]
  split <;> rfl

/-! ### `_segment_frame_peaks`

Source (`core.py` lines 15-43):
```
fluo = np.asarray(fluo, dtype=np.float64)
if sigma > 0: fluo = ndimage.gaussian_filter(fluo, sigma=sigma, mode="nearest")
size = max(3, 2 * min_distance + 1)
max_filtered = ndimage.maximum_filter(fluo, size=size, mode="nearest")
peak_mask = (fluo >= max_filtered) & (fluo > min_intensity)
labeled_plateaus, n_plateaus = ndimage.label(peak_mask)
if n_plateaus == 0: return zeros
for i in 1..n_plateaus:
    ys, xs = np.where(labeled_plateaus == i)      # row-major order
    idx = np.argmax(fluo[ys, xs])                 # first maximum
    seed_label[ys[idx], xs[idx]] = i
_, indices = ndimage.distance_transform_edt(~seed_binary, return_indices=True)
labels = seed_label[indices[0], indices[1]]
```
The nearest-seed tie-break of `distance_transform_edt`'s feature
transform is implementation-defined (spec §9); the embedding uses the
stated deterministic rule: smallest squared distance, ties resolved in
favour of the earlier seed in plateau-label order.  Seeds of distinct
plateaus are provably distinct pixels, so the overwrite order of the
`seed_label[...] = i` loop is immaterial. -/

/-- Sliding-window maximum of the (blurred) intensity image, window
`(2r+1)²`, nearest-edge clamping.  The centre pixel belongs to its own
window, so seeding the fold with its value is neutral. -/
def maxFiltQ (h w r : ℕ) (g : ℕ → ℕ → ℚ) (p : Pos) : ℚ :=
  (winPositions h w r p).foldl (fun m q => max m (g q.1 q.2)) (g p.1 p.2)

/-- `peak_mask = (fluo >= max_filtered) & (fluo > min_intensity)`,
restricted to the frame. -/
def peaksMask (h w min_distance : ℕ) (min_intensity : ℚ)
    (g : ℕ → ℕ → ℚ) : ℕ → ℕ → Bool :=
  fun y x =>
    decide (inBounds h w (y, x)) &&
    decide (maxFiltQ h w (winRadius min_distance) g (y, x) ≤ g y x) &&
    decide (min_intensity < g y x)

/-- The pixels of plateau `i` in row-major order
(`np.where(labeled_plateaus == i)`). -/
def plateauPixels (h w : ℕ) (mask : ℕ → ℕ → Bool) (i : ℕ) : List Pos :=
  (rowMajor h w).filter fun p => decide (labelOf h w mask p = i)

/-- First-occurrence argmax (`np.argmax` keeps the first maximum):
the accumulator is replaced only on strict increase. -/
def firstArgmaxAux (g : ℕ → ℕ → ℚ) : Pos → List Pos → Pos
  | best, [] => best
  | best, c :: rest =>
      if g best.1 best.2 < g c.1 c.2 then firstArgmaxAux g c rest
      else firstArgmaxAux g best rest

/-- The seed of a plateau: the first pixel (in row-major order of the
plateau) of maximum blurred intensity. -/
def seedOfPlateau (g : ℕ → ℕ → ℚ) (pix : List Pos) : Pos :=
  match pix with
  | [] => (0, 0)
  | q :: rest => firstArgmaxAux g q rest

/-- All seed pixels, in plateau-label order `1..N`. -/
def seedsList (h w : ℕ) (mask : ℕ → ℕ → Bool) (g : ℕ → ℕ → ℚ) :
    List Pos :=
  (List.range (numLabels h w mask)).map fun k =>
    seedOfPlateau g (plateauPixels h w mask (k + 1))

/-- The `seed_label` image: plateau index at its seed pixel, else 0. -/
def seedLabel (h w : ℕ) (mask : ℕ → ℕ → Bool) (g : ℕ → ℕ → ℚ)
    (p : Pos) : ℕ :=
  match (List.range (numLabels h w mask)).find?
      (fun k => decide (seedOfPlateau g (plateauPixels h w mask (k + 1)) = p))
    with
  | some k => k + 1
  | none => 0

/-- First-occurrence argmin by a `ℕ`-valued key: the accumulator is
replaced only on strict decrease. -/
def firstArgminAux (key : Pos → ℕ) : Pos → List Pos → Pos
  | best, [] => best
  | best, c :: rest =>
      if key c < key best then firstArgminAux key c rest
      else firstArgminAux key best rest

/-- Nearest seed of a pixel (the feature transform of
`distance_transform_edt(~seed_binary, return_indices=True)`), with the
deterministic tie-break described in the header. -/
def nearestSeed (seeds : List Pos) (p : Pos) : Option Pos :=
  match seeds with
  | [] => none
  | q :: rest => some (firstArgminAux (fun s => d2 p s) q rest)

/-- Steps 2-7 of the peak segmenter on the working image `g`. -/
def peaksOnG (h w min_distance : ℕ) (min_intensity : ℚ)
    (g : ℕ → ℕ → ℚ) : ℕ → ℕ → ℕ :=
  if numLabels h w (peaksMask h w min_distance min_intensity g) = 0 then
    fun _ _ => 0
  else fun y x =>
    match nearestSeed
        (seedsList h w (peaksMask h w min_distance min_intensity g) g)
        (y, x) with
    | some s => seedLabel h w (peaksMask h w min_distance min_intensity g) g s
    | none => 0

/-- The peak segmenter `_segment_frame_peaks`. -/
def segment_frame_peaks (h w : ℕ)
    (blur : (ℕ → ℕ → ℚ) → (ℕ → ℕ → ℚ)) (sigma min_intensity : ℚ)
    (min_distance : ℕ) (fluo : ℕ → ℕ → ℚ) : ℕ → ℕ → ℕ :=
  peaksOnG h w min_distance min_intensity (blurStep blur sigma fluo)

theorem firstArgmaxAux_mem (g : ℕ → ℕ → ℚ) :
    ∀ (l : List Pos) (best : Pos),
      firstArgmaxAux g best l = best ∨ firstArgmaxAux g best l ∈ l := by
  intro l
  induction l with
  | nil => intro best; exact Or.inl rfl
  | cons c rest ih =>
      intro best
      rw [firstArgmaxAux]
      split
      · rcases ih c with heq | hmem
        · exact Or.inr (by rw [heq]; exact List.mem_cons_self c rest)
        · exact Or.inr (List.mem_cons_of_mem c hmem)
      · rcases ih best with heq | hmem
        · exact Or.inl heq
        · exact Or.inr (List.mem_cons_of_mem c hmem)

theorem firstArgmaxAux_ge (g : ℕ → ℕ → ℚ) :
    ∀ (l : List Pos) (best : Pos),
      g best.1 best.2 ≤
        g (firstArgmaxAux g best l).1 (firstArgmaxAux g best l).2 ∧
      ∀ q ∈ l, g q.1 q.2 ≤
        g (firstArgmaxAux g best l).1 (firstArgmaxAux g best l).2 := by
  intro l
  induction l with
  | nil => intro best; exact ⟨le_rfl, fun q hq => absurd hq (List.not_mem_nil q)⟩
  | cons c rest ih =>
      intro best
      rw [firstArgmaxAux]
      split
      · next hlt =>
          obtain ⟨h1, h2⟩ := ih c
          refine ⟨le_trans (le_of_lt hlt) h1, ?_⟩
          intro q hq
          rcases List.mem_cons.mp hq with rfl | hq'
          · exact h1
          · exact h2 q hq'
      · next hge =>
          obtain ⟨h1, h2⟩ := ih best
          refine ⟨h1, ?_⟩
          intro q hq
          rcases List.mem_cons.mp hq with rfl | hq'
          · exact le_trans (not_lt.mp hge) h1
          · exact h2 q hq'

theorem firstArgmaxAux_first (g : ℕ → ℕ → ℚ) :
    ∀ (l : List Pos) (best : Pos),
      ∃ l1 l2, best :: l = l1 ++ firstArgmaxAux g best l :: l2 ∧
        ∀ q ∈ l1, g q.1 q.2 <
          g (firstArgmaxAux g best l).1 (firstArgmaxAux g best l).2 := by
  intro l
  induction l with
  | nil =>
      intro best
      exact ⟨[], [], rfl, fun q hq => absurd hq (List.not_mem_nil q)⟩
  | cons c rest ih =>
      intro best
      rw [firstArgmaxAux]
      split
      · next hlt =>
          obtain ⟨l1, l2, hsplit, hless⟩ := ih c
          refine ⟨best :: l1, l2, by rw [List.cons_append, ← hsplit], ?_⟩
          intro q hq
          rcases List.mem_cons.mp hq with rfl | hq'
          · exact lt_of_lt_of_le hlt (firstArgmaxAux_ge g rest c).1
          · exact hless q hq'
      · next hge =>
          obtain ⟨l1, l2, hsplit, hless⟩ := ih best
          set r := firstArgmaxAux g best rest with hr
          cases l1 with
          | nil =>
              rw [List.nil_append] at hsplit
              simp only [List.cons.injEq] at hsplit
              refine ⟨[], c :: rest, ?_,
                fun q hq => absurd hq (List.not_mem_nil q)⟩
              rw [List.nil_append, ← hsplit.1]
          | cons b l1' =>
              injection hsplit with h1 h2
              subst h1
              refine ⟨best :: c :: l1', l2, ?_, ?_⟩
              · rw [h2]
                rfl
              · intro q hq
                have hbr : g best.1 best.2 < g r.1 r.2 :=
                  hless best (List.mem_cons_self best l1')
                rcases List.mem_cons.mp hq with rfl | hq'
                · exact hbr
                · rcases List.mem_cons.mp hq' with rfl | hq''
                  · exact lt_of_le_of_lt (not_lt.mp hge) hbr
                  · exact hless q (List.mem_cons_of_mem best hq'')

theorem firstArgminAux_mem (key : Pos → ℕ) :
    ∀ (l : List Pos) (best : Pos),
      firstArgminAux key best l = best ∨ firstArgminAux key best l ∈ l := by
  intro l
  induction l with
  | nil => intro best; exact Or.inl rfl
  | cons c rest ih =>
      intro best
      rw [firstArgminAux]
      split
      · rcases ih c with heq | hmem
        · exact Or.inr (by rw [heq]; exact List.mem_cons_self c rest)
        · exact Or.inr (List.mem_cons_of_mem c hmem)
      · rcases ih best with heq | hmem
        · exact Or.inl heq
        · exact Or.inr (List.mem_cons_of_mem c hmem)

theorem nearestSeed_mem {seeds : List Pos} {p s : Pos}
    (hs : nearestSeed seeds p = some s) : s ∈ seeds := by
  cases seeds with
  | nil => simp [nearestSeed] at hs
  | cons q rest =>
      rw [nearestSeed] at hs
      injection hs with hs
      rcases firstArgminAux_mem (fun s => d2 p s) rest q with heq | hmem
      · rw [← hs, heq]; exact List.mem_cons_self q rest
      · rw [← hs]; exact List.mem_cons_of_mem q hmem

theorem nearestSeed_isSome {seeds : List Pos} {p : Pos}
    (hne : seeds ≠ []) : ∃ s, nearestSeed seeds p = some s := by
  cases seeds with
  | nil => exact absurd rfl hne
  | cons q rest => exact ⟨_, rfl⟩

theorem mem_plateauPixels {h w : ℕ} {mask : ℕ → ℕ → Bool} {i : ℕ} {p : Pos} :
    p ∈ plateauPixels h w mask i ↔
      inBounds h w p ∧ labelOf h w mask p = i := by
  rw [plateauPixels, List.mem_filter, mem_rowMajor, decide_eq_true_iff]

theorem plateauPixels_ne_nil {h w : ℕ} {mask : ℕ → ℕ → Bool} {i : ℕ}
    (h1 : 1 ≤ i) (h2 : i ≤ numLabels h w mask) :
    plateauPixels h w mask i ≠ [] := by
  obtain ⟨r, hbr, _, hlr⟩ := labelOf_attained h1 h2
  intro hc
  have : r ∈ plateauPixels h w mask i := mem_plateauPixels.mpr ⟨hbr, hlr⟩
  rw [hc] at this
  exact absurd this (List.not_mem_nil r)

theorem seedOfPlateau_spec {g : ℕ → ℕ → ℚ} {pix : List Pos}
    (hne : pix ≠ []) :
    seedOfPlateau g pix ∈ pix ∧
    (∀ q ∈ pix, g q.1 q.2 ≤
      g (seedOfPlateau g pix).1 (seedOfPlateau g pix).2) ∧
    ∃ l1 l2, pix = l1 ++ seedOfPlateau g pix :: l2 ∧
      ∀ q ∈ l1, g q.1 q.2 <
        g (seedOfPlateau g pix).1 (seedOfPlateau g pix).2 := by
  cases pix with
  | nil => exact absurd rfl hne
  | cons q rest =>
      rw [seedOfPlateau]
      obtain ⟨l1, l2, hsplit, hless⟩ := firstArgmaxAux_first g rest q
      refine ⟨?_, ?_, l1, l2, hsplit, hless⟩
      · rw [hsplit]
        exact List.mem_append_right l1 (List.mem_cons_self _ _)
      · intro x hx
        rcases List.mem_cons.mp hx with rfl | hx'
        · exact (firstArgmaxAux_ge g rest x).1
        · exact (firstArgmaxAux_ge g rest q).2 x hx'

theorem seedOfPlateau_label {h w : ℕ} {mask : ℕ → ℕ → Bool}
    {g : ℕ → ℕ → ℚ} {i : ℕ} (h1 : 1 ≤ i) (h2 : i ≤ numLabels h w mask) :
    labelOf h w mask (seedOfPlateau g (plateauPixels h w mask i)) = i := by
  have hmem := (@seedOfPlateau_spec g (plateauPixels h w mask i)
    (plateauPixels_ne_nil h1 h2)).1
  exact (mem_plateauPixels.mp hmem).2

theorem seedLabel_range {h w : ℕ} {mask : ℕ → ℕ → Bool} {g : ℕ → ℕ → ℚ}
    {p : Pos} (hnz : seedLabel h w mask g p ≠ 0) :
    1 ≤ seedLabel h w mask g p ∧
      seedLabel h w mask g p ≤ numLabels h w mask := by
  rw [seedLabel] at hnz ⊢
  cases hf : (List.range (numLabels h w mask)).find?
      (fun k => decide (seedOfPlateau g (plateauPixels h w mask (k + 1)) = p))
    with
  | none => rw [hf] at hnz; exact absurd rfl hnz
  | some k =>
      show 1 ≤ k + 1 ∧ k + 1 ≤ numLabels h w mask
      have hk := List.mem_of_find?_eq_some hf
      rw [List.mem_range] at hk
      omega

theorem seedLabel_of_mem_seedsList {h w : ℕ} {mask : ℕ → ℕ → Bool}
    {g : ℕ → ℕ → ℚ} {s : Pos} (hs : s ∈ seedsList h w mask g) :
    seedLabel h w mask g s ≠ 0 := by
  rw [seedsList, List.mem_map] at hs
  obtain ⟨k, hk, hseed⟩ := hs
  have hsome : ((List.range (numLabels h w mask)).find?
      (fun k => decide (seedOfPlateau g (plateauPixels h w mask (k + 1)) = s))).isSome := by
    rw [List.find?_isSome]
    exact ⟨k, hk, decide_eq_true hseed⟩
  rw [seedLabel]
  cases hf : (List.range (numLabels h w mask)).find?
      (fun k => decide (seedOfPlateau g (plateauPixels h w mask (k + 1)) = s))
    with
  | none => rw [hf] at hsome; simp at hsome
  | some k' => simp

theorem seedsList_length (h w : ℕ) (mask : ℕ → ℕ → Bool) (g : ℕ → ℕ → ℚ) :
    (seedsList h w mask g).length = numLabels h w mask := by
  rw [seedsList, List.length_map, List.length_range]

theorem peaksOnG_all_labeled {h w min_distance : ℕ} {min_intensity : ℚ}
    {g : ℕ → ℕ → ℚ}
    (hN : numLabels h w (peaksMask h w min_distance min_intensity g) ≠ 0) :
    ∀ y x, 1 ≤ peaksOnG h w min_distance min_intensity g y x ∧
      peaksOnG h w min_distance min_intensity g y x ≤
        numLabels h w (peaksMask h w min_distance min_intensity g) := by
  intro y x
  rw [peaksOnG, if_neg hN]
  have hne : seedsList h w (peaksMask h w min_distance min_intensity g) g ≠
      [] := by
    intro hc
    have := seedsList_length h w (peaksMask h w min_distance min_intensity g) g
    rw [hc] at this
    exact hN this.symm
  obtain ⟨s, hs⟩ := nearestSeed_isSome (p := (y, x)) hne
  rw [hs]
  have hnz := seedLabel_of_mem_seedsList (nearestSeed_mem hs)
  have := seedLabel_range hnz
  exact this

theorem peaksOnG_no_plateaus {h w min_distance : ℕ} {min_intensity : ℚ}
    {g : ℕ → ℕ → ℚ}
    (hN : numLabels h w (peaksMask h w min_distance min_intensity g) = 0) :
    peaksOnG h w min_distance min_intensity g = fun _ _ => 0 := by
  rw [peaksOnG, if_pos hN]

/-! ### Quantifier (`run_analyze` inner loop, `core.py` lines 263-269)

```
for cell_id in np.unique(masks):
    if cell_id == 0: continue
    cell_mask = masks == cell_id
    total_fluorescence = float(np.sum(fluo[cell_mask]))
    cell_area = int(np.sum(cell_mask))
    rows.append((t, crop_id, int(cell_id), total_fluorescence, cell_area, background))
```
`np.unique` returns the distinct values in ascending order. -/

/-- One output row of the quantifier. -/
structure CellRecord where
  t : ℕ
  crop : String
  cell : ℕ
  total_fluorescence : ℚ
  cell_area : ℕ
  background : ℚ
deriving DecidableEq

/-- Insert a value into an ascending duplicate-free list, keeping it
ascending and duplicate-free. -/
def insertUnique (v : ℕ) : List ℕ → List ℕ
  | [] => [v]
  | x :: xs =>
      if v < x then v :: x :: xs
      else if v = x then x :: xs
      else x :: insertUnique v xs

/-- The distinct mask values of the frame, ascending (`np.unique`). -/
def uniqueLabels (h w : ℕ) (mask : ℕ → ℕ → ℕ) : List ℕ :=
  ((rowMajor h w).map fun p => mask p.1 p.2).foldr insertUnique []

theorem mem_insertUnique {v a : ℕ} :
    ∀ l : List ℕ, a ∈ insertUnique v l ↔ a = v ∨ a ∈ l := by
  intro l
  induction l with
  | nil => simp [insertUnique]
  | cons x xs ih =>
      rw [insertUnique]
      split
      · simp [List.mem_cons]
      · split
        · next hlt heq =>
            subst heq
            simp only [List.mem_cons]
            tauto
        · simp only [List.mem_cons, ih]
          tauto

theorem insertUnique_sorted {v : ℕ} :
    ∀ {l : List ℕ}, l.Sorted (· < ·) → (insertUnique v l).Sorted (· < ·) := by
  intro l
  induction l with
  | nil => intro _; simp [insertUnique]
  | cons x xs ih =>
      intro hs
      rw [List.sorted_cons] at hs
      rw [insertUnique]
      split
      · next hlt =>
          rw [List.sorted_cons]
          refine ⟨?_, List.sorted_cons.mpr hs⟩
          intro b hb
          rcases List.mem_cons.mp hb with rfl | hmem
          · exact hlt
          · exact lt_trans hlt (hs.1 b hmem)
      · split
        · exact List.sorted_cons.mpr hs
        · next hnlt hne =>
            rw [List.sorted_cons]
            refine ⟨?_, ih hs.2⟩
            intro b hb
            rcases (mem_insertUnique xs).mp hb with rfl | hmem
            · omega
            · exact hs.1 b hmem

/-- The pixels carrying label `cid` (`masks == cell_id`). -/
def cellPixels (h w : ℕ) (mask : ℕ → ℕ → ℕ) (cid : ℕ) : List Pos :=
  (rowMajor h w).filter fun p => decide (mask p.1 p.2 = cid)

/-- `cell_area = int(np.sum(cell_mask))`. -/
def cellArea (h w : ℕ) (mask : ℕ → ℕ → ℕ) (cid : ℕ) : ℕ :=
  (cellPixels h w mask cid).length

/-- `total_fluorescence = float(np.sum(fluo[cell_mask]))`. -/
def cellFluo (h w : ℕ) (fluo : ℕ → ℕ → ℚ) (mask : ℕ → ℕ → ℕ)
    (cid : ℕ) : ℚ :=
  ((cellPixels h w mask cid).map fun p => fluo p.1 p.2).sum

/-- The records one frame/mask pair contributes, in ascending label
order, skipping label 0. -/
def quantifyFrame (h w : ℕ) (fluo : ℕ → ℕ → ℚ) (mask : ℕ → ℕ → ℕ)
    (background : ℚ) (t : ℕ) (crop : String) : List CellRecord :=
  ((uniqueLabels h w mask).filter fun cid => decide (cid ≠ 0)).map fun cid =>
    { t := t
      crop := crop
      cell := cid
      total_fluorescence := cellFluo h w fluo mask cid
      cell_area := cellArea h w mask cid
      background := background }

theorem mem_foldr_insertUnique {a : ℕ} :
    ∀ vals : List ℕ, a ∈ vals.foldr insertUnique [] ↔ a ∈ vals := by
  intro vals
  induction vals with
  | nil => simp
  | cons v vs ih =>
      rw [List.foldr_cons, mem_insertUnique, ih, List.mem_cons]

theorem mem_uniqueLabels {h w : ℕ} {mask : ℕ → ℕ → ℕ} {v : ℕ} :
    v ∈ uniqueLabels h w mask ↔
      ∃ p, inBounds h w p ∧ mask p.1 p.2 = v := by
  rw [uniqueLabels, mem_foldr_insertUnique]
  simp only [List.mem_map]
  constructor
  · rintro ⟨p, hp, rfl⟩
    exact ⟨p, mem_rowMajor.mp hp, rfl⟩
  · rintro ⟨p, hp, rfl⟩
    exact ⟨p, mem_rowMajor.mpr hp, rfl⟩

theorem uniqueLabels_sorted (h w : ℕ) (mask : ℕ → ℕ → ℕ) :
    (uniqueLabels h w mask).Sorted (· < ·) := by
  rw [uniqueLabels]
  induction ((rowMajor h w).map fun p => mask p.1 p.2) with
  | nil => simp
  | cons v vs ih => exact insertUnique_sorted ih

theorem uniqueLabels_nodup (h w : ℕ) (mask : ℕ → ℕ → ℕ) :
    (uniqueLabels h w mask).Nodup :=
  (uniqueLabels_sorted h w mask).nodup

theorem quantifyFrame_cells (h w : ℕ) (fluo : ℕ → ℕ → ℚ)
    (mask : ℕ → ℕ → ℕ) (background : ℚ) (t : ℕ) (crop : String) :
    (quantifyFrame h w fluo mask background t crop).map CellRecord.cell =
      (uniqueLabels h w mask).filter fun cid => decide (cid ≠ 0) := by
  rw [quantifyFrame, List.map_map]
  exact List.map_id'' (fun _ => rfl) _

theorem mem_quantifyFrame {h w : ℕ} {fluo : ℕ → ℕ → ℚ}
    {mask : ℕ → ℕ → ℕ} {background : ℚ} {t : ℕ} {crop : String}
    {r : CellRecord}
    (hr : r ∈ quantifyFrame h w fluo mask background t crop) :
    r.cell ≠ 0 ∧ r.cell ∈ uniqueLabels h w mask ∧
    r.t = t ∧ r.crop = crop ∧ r.background = background ∧
    r.total_fluorescence = cellFluo h w fluo mask r.cell ∧
    r.cell_area = cellArea h w mask r.cell := by
  rw [quantifyFrame, List.mem_map] at hr
  obtain ⟨cid, hcid, rfl⟩ := hr
  rw [List.mem_filter, decide_eq_true_iff] at hcid
  exact ⟨hcid.2, hcid.1, rfl, rfl, rfl, rfl, rfl⟩

theorem quantifyFrame_empty {h w : ℕ} {fluo : ℕ → ℕ → ℚ}
    {mask : ℕ → ℕ → ℕ} {background : ℚ} {t : ℕ} {crop : String}
    (hz : ∀ p, inBounds h w p → mask p.1 p.2 = 0) :
    quantifyFrame h w fluo mask background t crop = [] := by
  rw [quantifyFrame]
  have : ((uniqueLabels h w mask).filter fun cid => decide (cid ≠ 0)) = [] := by
    rw [List.filter_eq_nil]
    intro v hv
    obtain ⟨p, hbp, hmp⟩ := mem_uniqueLabels.mp hv
    rw [hz p hbp] at hmp
    simp [← hmp]
  rw [this, List.map_nil]

theorem countP_or_disjoint {α : Type} (p q : α → Bool)
    (hdisj : ∀ a, ¬(p a = true ∧ q a = true)) :
    ∀ l : List α, l.countP (fun a => p a || q a) = l.countP p + l.countP q := by
  intro l
  induction l with
  | nil => simp
  | cons a as ih =>
      rw [List.countP_cons, List.countP_cons, List.countP_cons, ih]
      rcases hp : p a with _ | _ <;> rcases hq : q a with _ | _ <;>
        simp_all <;> omega

theorem sum_cellAreas {h w : ℕ} {mask : ℕ → ℕ → ℕ} :
    ∀ labels : List ℕ, labels.Nodup →
      (labels.map fun cid => cellArea h w mask cid).sum =
        ((rowMajor h w).filter fun p =>
          decide (mask p.1 p.2 ∈ labels)).length := by
  intro labels
  induction labels with
  | nil => simp
  | cons c ls ih =>
      intro hnd
      obtain ⟨hc, hnd'⟩ := List.nodup_cons.mp hnd
      rw [List.map_cons, List.sum_cons, ih hnd', cellArea, cellPixels]
      rw [← List.countP_eq_length_filter, ← List.countP_eq_length_filter,
        ← List.countP_eq_length_filter]
      have hdisj : ∀ a : Pos, ¬((decide (mask a.1 a.2 = c)) = true ∧
          (decide (mask a.1 a.2 ∈ ls)) = true) := by
        intro a ⟨h1, h2⟩
        rw [decide_eq_true_iff] at h1 h2
        exact hc (h1 ▸ h2)
      have := countP_or_disjoint (fun a : Pos => decide (mask a.1 a.2 = c))
        (fun a : Pos => decide (mask a.1 a.2 ∈ ls)) hdisj (rowMajor h w)
      rw [← this]
      apply List.countP_congr
      intro a _
      simp [List.mem_cons]

theorem quantifyFrame_area_sum (h w : ℕ) (fluo : ℕ → ℕ → ℚ)
    (mask : ℕ → ℕ → ℕ) (background : ℚ) (t : ℕ) (crop : String) :
    ((quantifyFrame h w fluo mask background t crop).map
      CellRecord.cell_area).sum =
    ((rowMajor h w).filter fun p => decide (mask p.1 p.2 ≠ 0)).length := by
  have hmap : (quantifyFrame h w fluo mask background t crop).map
      CellRecord.cell_area =
      ((uniqueLabels h w mask).filter fun cid => decide (cid ≠ 0)).map
        fun cid => cellArea h w mask cid := by
    rw [quantifyFrame, List.map_map]
    rfl
  rw [hmap, sum_cellAreas _ ((uniqueLabels_nodup h w mask).filter _)]
  apply congrArg
  apply List.filter_congr
  intro p hp
  rw [decide_eq_decide, List.mem_filter, decide_eq_true_iff]
  constructor
  · rintro ⟨_, hnz⟩
    exact hnz
  · intro hnz
    exact ⟨mem_uniqueLabels.mpr ⟨p, mem_rowMajor.mp hp, rfl⟩, hnz⟩

/-! ### Median background (`np.median`) and backgrounds in the drivers

Both drivers read the per-frame background from the position's
`background` array when it exists; when the whole array is missing
(`bg_arr is None`) they use `float(np.median(fluo))` of the current
frame.  `np.median` sorts the values; for odd count it takes the
middle element, for even count the mean of the two middle elements.
For an empty frame `np.median` yields NaN (with a warning), which has
no counterpart in `ℚ`; the embedding returns `0` there and every
theorem about the median assumes a nonempty frame. -/

def npMedian (l : List ℚ) : ℚ :=
  let s := Multiset.sort (· ≤ ·) (↑l : Multiset ℚ)
  if s.length = 0 then 0
  else if s.length % 2 = 1 then s.getD (s.length / 2) 0
  else (s.getD (s.length / 2 - 1) 0 + s.getD (s.length / 2) 0) / 2

/-- The pixel values of a frame (row-major). -/
def frameValues (h w : ℕ) (fluo : ℕ → ℕ → ℚ) : List ℚ :=
  (rowMajor h w).map fun p => fluo p.1 p.2

/-- Background used for one frame: the stored per-`t` value when the
`background` array exists, otherwise the median of the current frame
(`core.py` lines 117-120 and 259-262). -/
def backgroundFor (bgArr : Option (ℕ → ℚ)) (t : ℕ) (h w : ℕ)
    (fluo : ℕ → ℕ → ℚ) : ℚ :=
  match bgArr with
  | some bg => bg t
  | none => npMedian (frameValues h w fluo)

/-! ### Pipeline drivers (`run_segment_watershed`, `run_analyze`)

The zarr store access is external I/O; the embedding models a loaded
position as a list of crops (in the sorted key order the source uses),
each with its frame series (and, for `run_analyze`, the mask series
read from masks.zarr).  A driver returns its outputs together with the
list of `(fraction, message)` progress events it would emit; the
optional callback is a `Bool` saying whether a receiver is attached
(`on_progress and total_work > 0` guards each per-unit event, a final
`(1.0, ...)` event is emitted whenever a receiver exists). -/

/-- One crop of a position as read by `run_segment_watershed`. -/
structure SegCrop where
  cid : String
  hh : ℕ
  ww : ℕ
  frames : List (ℕ → ℕ → ℚ)

/-- `total_work = sum(crop.shape[0] for crop in crops)`. -/
def segTotalWork (crops : List SegCrop) : ℕ :=
  (crops.map fun c => c.frames.length).sum

/-- `f"Crop {crop_idx + 1}/{n_crops}, frame {t + 1}/{n_times}"`. -/
def progressMsg (ci n_crops t n_times : ℕ) : String :=
  "Crop " ++ toString (ci + 1) ++ "/" ++ toString n_crops ++
    ", frame " ++ toString (t + 1) ++ "/" ++ toString n_times

/-- The per-frame work of `run_segment_watershed` (`core.py` lines
116-128): read the frame, resolve the background, segment. -/
def segDriverFrame (blur : (ℕ → ℕ → ℚ) → (ℕ → ℕ → ℚ))
    (sigma margin : ℚ) (min_distance : ℕ) (bgArr : Option (ℕ → ℚ))
    (hh ww t : ℕ) (f : ℕ → ℕ → ℚ) : ℕ → ℕ → ℕ :=
  segment_frame_watershed hh ww blur sigma
    (backgroundFor bgArr t hh ww f) margin min_distance f

/-- Inner loop of `run_segment_watershed`: one crop, frames from time
`t`, `done` units already completed. -/
def segCropGo (blur : (ℕ → ℕ → ℚ) → (ℕ → ℕ → ℚ))
    (sigma margin : ℚ) (min_distance : ℕ) (bgArr : Option (ℕ → ℚ))
    (cb : Bool) (total n_crops ci n_times : ℕ) (c : SegCrop) :
    List (ℕ → ℕ → ℚ) → ℕ → ℕ →
      List (ℕ → ℕ → ℕ) × List (ℚ × String) × ℕ
  | [], _, done => ([], [], done)
  | f :: fs, t, done =>
      let m := segDriverFrame blur sigma margin min_distance bgArr
        c.hh c.ww t f
      let tailRes := segCropGo blur sigma margin min_distance bgArr cb total
        n_crops ci n_times c fs (t + 1) (done + 1)
      (m :: tailRes.1,
       (if cb && decide (0 < total) then
          [(((done + 1 : ℕ) : ℚ) / (total : ℚ),
            progressMsg ci n_crops t n_times)]
        else []) ++ tailRes.2.1,
       tailRes.2.2)

/-- Outer loop of `run_segment_watershed` over the crops. -/
def segCropsGo (blur : (ℕ → ℕ → ℚ) → (ℕ → ℕ → ℚ))
    (sigma margin : ℚ) (min_distance : ℕ) (bgArr : Option (ℕ → ℚ))
    (cb : Bool) (total n_crops : ℕ) :
    List SegCrop → ℕ → ℕ →
      List (String × List (ℕ → ℕ → ℕ)) × List (ℚ × String) × ℕ
  | [], _, done => ([], [], done)
  | c :: rest, ci, done =>
      let inner := segCropGo blur sigma margin min_distance bgArr cb total
        n_crops ci c.frames.length c c.frames 0 done
      let outer := segCropsGo blur sigma margin min_distance bgArr cb total
        n_crops rest (ci + 1) inner.2.2
      ((c.cid, inner.1) :: outer.1, inner.2.1 ++ outer.2.1, outer.2.2)

/-- The `run_segment_watershed` driver: per-crop masks plus the
progress events it would deliver. -/
def run_segment_watershed (blur : (ℕ → ℕ → ℚ) → (ℕ → ℕ → ℚ))
    (sigma margin : ℚ) (min_distance : ℕ) (bgArr : Option (ℕ → ℚ))
    (crops : List SegCrop) (cb : Bool) :
    List (String × List (ℕ → ℕ → ℕ)) × List (ℚ × String) :=
  let r := segCropsGo blur sigma margin min_distance bgArr cb
    (segTotalWork crops) crops.length crops 0 0
  (r.1, r.2.1 ++ (if cb then [(1, "Done")] else []))

/-- One crop of a position as read by `run_analyze` (its fluorescence
frames and the masks written by a segmentation run). -/
structure AnalyzeCrop where
  cid : String
  hh : ℕ
  ww : ℕ
  frames : List (ℕ → ℕ → ℚ)
  masks : List (ℕ → ℕ → ℕ)

/-- `total_work = sum(crop.shape[0] for crop in crops)`. -/
def anaTotalWork (crops : List AnalyzeCrop) : ℕ :=
  (crops.map fun c => c.frames.length).sum

/-- The per-frame work of `run_analyze` (`core.py` lines 256-269):
read frame and mask, resolve the background, quantify. -/
def anaDriverFrame (bgArr : Option (ℕ → ℚ)) (hh ww t : ℕ) (cid : String)
    (f : ℕ → ℕ → ℚ) (m : ℕ → ℕ → ℕ) : List CellRecord :=
  quantifyFrame hh ww f m (backgroundFor bgArr t hh ww f) t cid

/-- Inner loop of `run_analyze`: the time loop runs over the frame
count of the crops store; the mask of each `t` is read from the masks
store (a malformed store with fewer masks than frames would raise in
the source; the embedding reads an all-zero mask there). -/
def anaCropGo (bgArr : Option (ℕ → ℚ)) (cb : Bool)
    (total n_crops ci n_times : ℕ) (c : AnalyzeCrop) :
    List (ℕ → ℕ → ℚ) → List (ℕ → ℕ → ℕ) → ℕ → ℕ →
      List CellRecord × List (ℚ × String) × ℕ
  | [], _, _, done => ([], [], done)
  | f :: fs, ms, t, done =>
      let rows := anaDriverFrame bgArr c.hh c.ww t c.cid f
        (ms.headD fun _ _ => 0)
      let tailRes := anaCropGo bgArr cb total n_crops ci n_times c fs ms.tail
        (t + 1) (done + 1)
      (rows ++ tailRes.1,
       (if cb && decide (0 < total) then
          [(((done + 1 : ℕ) : ℚ) / (total : ℚ),
            progressMsg ci n_crops t n_times)]
        else []) ++ tailRes.2.1,
       tailRes.2.2)

/-- Outer loop of `run_analyze` over the crops; rows accumulate into
one flat list in `(crop, t)` order. -/
def anaCropsGo (bgArr : Option (ℕ → ℚ)) (cb : Bool) (total n_crops : ℕ) :
    List AnalyzeCrop → ℕ → ℕ →
      List CellRecord × List (ℚ × String) × ℕ
  | [], _, done => ([], [], done)
  | c :: rest, ci, done =>
      let inner := anaCropGo bgArr cb total n_crops ci c.frames.length c
        c.frames c.masks 0 done
      let outer := anaCropsGo bgArr cb total n_crops rest (ci + 1) inner.2.2
      (inner.1 ++ outer.1, inner.2.1 ++ outer.2.1, outer.2.2)

/-- `"t,crop,cell,total_fluorescence,cell_area,background"`. -/
def csvHeader : String := "t,crop,cell,total_fluorescence,cell_area,background"

/-- One CSV data row (the numeric-to-text rendering of the source is
Python float `repr`; the spec leaves exact textual formatting to the
collaborator, and no claim depends on it). -/
def rowLine (r : CellRecord) : String :=
  toString r.t ++ "," ++ r.crop ++ "," ++ toString r.cell ++ "," ++
    toString r.total_fluorescence ++ "," ++ toString r.cell_area ++ "," ++
    toString r.background

/-- The `run_analyze` driver: the CSV lines written (header first)
plus the progress events it would deliver. -/
def run_analyze (bgArr : Option (ℕ → ℚ)) (crops : List AnalyzeCrop)
    (out_path : String) (cb : Bool) :
    List String × List (ℚ × String) :=
  let r := anaCropsGo bgArr cb (anaTotalWork crops) crops.length crops 0 0
  (csvHeader :: r.1.map rowLine,
   r.2.1 ++ (if cb then
     [(1, "Wrote " ++ toString r.1.length ++ " rows to " ++ out_path)]
   else []))

/-- The masks one crop receives, as the per-frame step applied along
the frame series. -/
def segMasksFrom (blur : (ℕ → ℕ → ℚ) → (ℕ → ℕ → ℚ)) (sigma margin : ℚ)
    (min_distance : ℕ) (bgArr : Option (ℕ → ℚ)) (c : SegCrop) :
    List (ℕ → ℕ → ℚ) → ℕ → List (ℕ → ℕ → ℕ)
  | [], _ => []
  | f :: fs, t =>
      segDriverFrame blur sigma margin min_distance bgArr c.hh c.ww t f ::
        segMasksFrom blur sigma margin min_distance bgArr c fs (t + 1)

theorem segCropGo_masks (blur : (ℕ → ℕ → ℚ) → (ℕ → ℕ → ℚ))
    (sigma margin : ℚ) (min_distance : ℕ) (bgArr : Option (ℕ → ℚ))
    (cb : Bool) (total n_crops ci n_times : ℕ) (c : SegCrop) :
    ∀ (fs : List (ℕ → ℕ → ℚ)) (t done : ℕ),
      (segCropGo blur sigma margin min_distance bgArr cb total n_crops ci
        n_times c fs t done).1 =
      segMasksFrom blur sigma margin min_distance bgArr c fs t := by
  intro fs
  induction fs with
  | nil => intro t done; rfl
  | cons f fs ih =>
      intro t done
      rw [segCropGo, segMasksFrom]
      exact congrArg _ (ih (t + 1) (done + 1))

theorem segCropGo_done (blur : (ℕ → ℕ → ℚ) → (ℕ → ℕ → ℚ))
    (sigma margin : ℚ) (min_distance : ℕ) (bgArr : Option (ℕ → ℚ))
    (cb : Bool) (total n_crops ci n_times : ℕ) (c : SegCrop) :
    ∀ (fs : List (ℕ → ℕ → ℚ)) (t done : ℕ),
      (segCropGo blur sigma margin min_distance bgArr cb total n_crops ci
        n_times c fs t done).2.2 = done + fs.length := by
  intro fs
  induction fs with
  | nil => intro t done; rfl
  | cons f fs ih =>
      intro t done
      rw [segCropGo]
      show (segCropGo blur sigma margin min_distance bgArr cb total n_crops
        ci n_times c fs (t + 1) (done + 1)).2.2 = done + (f :: fs).length
      rw [ih (t + 1) (done + 1), List.length_cons]
      omega

theorem segCropGo_fracs (blur : (ℕ → ℕ → ℚ) → (ℕ → ℕ → ℚ))
    (sigma margin : ℚ) (min_distance : ℕ) (bgArr : Option (ℕ → ℚ))
    (cb : Bool) (total n_crops ci n_times : ℕ) (c : SegCrop) :
    ∀ (fs : List (ℕ → ℕ → ℚ)) (t done : ℕ),
      (segCropGo blur sigma margin min_distance bgArr cb total n_crops ci
        n_times c fs t done).2.1.map Prod.fst =
      if cb && decide (0 < total) then
        (List.range fs.length).map
          fun i => ((done + 1 + i : ℕ) : ℚ) / (total : ℚ)
      else [] := by
  intro fs
  induction fs with
  | nil =>
      intro t done
      rcases cb <;> simp [segCropGo]
  | cons f fs ih =>
      intro t done
      rw [segCropGo]
      show ((if cb && decide (0 < total) then
          [(((done + 1 : ℕ) : ℚ) / (total : ℚ),
            progressMsg ci n_crops t n_times)] else []) ++
        (segCropGo blur sigma margin min_distance bgArr cb total n_crops ci
          n_times c fs (t + 1) (done + 1)).2.1).map Prod.fst = _
      rw [List.map_append, ih (t + 1) (done + 1)]
      rcases hguard : cb && decide (0 < total) with _ | _
      · simp [hguard]
      · simp only [hguard, if_true, List.length_cons,
          List.range_succ_eq_map, List.map_cons, List.map_map,
          List.singleton_append, Nat.add_zero, List.map_nil,
          List.nil_append]
        congr 1
        apply List.map_congr_left
        intro i _
        simp only [Function.comp_apply]
        rw [show done + 1 + 1 + i = done + 1 + (i + 1) from by omega]

theorem segCropsGo_masks (blur : (ℕ → ℕ → ℚ) → (ℕ → ℕ → ℚ))
    (sigma margin : ℚ) (min_distance : ℕ) (bgArr : Option (ℕ → ℚ))
    (cb : Bool) (total n_crops : ℕ) :
    ∀ (crops : List SegCrop) (ci done : ℕ),
      (segCropsGo blur sigma margin min_distance bgArr cb total n_crops
        crops ci done).1 =
      crops.map fun c =>
        (c.cid, segMasksFrom blur sigma margin min_distance bgArr c
          c.frames 0) := by
  intro crops
  induction crops with
  | nil => intro ci done; rfl
  | cons c rest ih =>
      intro ci done
      rw [segCropsGo, List.map_cons]
      refine congrArg₂ _ ?_ (ih _ _)
      rw [segCropGo_masks]

theorem segCropsGo_done (blur : (ℕ → ℕ → ℚ) → (ℕ → ℕ → ℚ))
    (sigma margin : ℚ) (min_distance : ℕ) (bgArr : Option (ℕ → ℚ))
    (cb : Bool) (total n_crops : ℕ) :
    ∀ (crops : List SegCrop) (ci done : ℕ),
      (segCropsGo blur sigma margin min_distance bgArr cb total n_crops
        crops ci done).2.2 = done + segTotalWork crops := by
  intro crops
  induction crops with
  | nil => intro ci done; simp [segCropsGo, segTotalWork]
  | cons c rest ih =>
      intro ci done
      rw [segCropsGo]
      show (segCropsGo blur sigma margin min_distance bgArr cb total n_crops
        rest (ci + 1) _).2.2 = _
      rw [ih, segCropGo_done]
      rw [show segTotalWork (c :: rest) =
        c.frames.length + segTotalWork rest from by simp [segTotalWork]]
      omega

theorem segCropsGo_fracs (blur : (ℕ → ℕ → ℚ) → (ℕ → ℕ → ℚ))
    (sigma margin : ℚ) (min_distance : ℕ) (bgArr : Option (ℕ → ℚ))
    (cb : Bool) (total n_crops : ℕ) :
    ∀ (crops : List SegCrop) (ci done : ℕ),
      (segCropsGo blur sigma margin min_distance bgArr cb total n_crops
        crops ci done).2.1.map Prod.fst =
      if cb && decide (0 < total) then
        (List.range (segTotalWork crops)).map
          fun i => ((done + 1 + i : ℕ) : ℚ) / (total : ℚ)
      else [] := by
  intro crops
  induction crops with
  | nil =>
      intro ci done
      rcases cb <;> simp [segCropsGo, segTotalWork]
  | cons c rest ih =>
      intro ci done
      rw [segCropsGo]
      show ((segCropGo blur sigma margin min_distance bgArr cb total n_crops
          ci c.frames.length c c.frames 0 done).2.1 ++
        (segCropsGo blur sigma margin min_distance bgArr cb total n_crops
          rest (ci + 1) _).2.1).map Prod.fst = _
      rw [List.map_append, segCropGo_fracs, ih, segCropGo_done]
      rcases hguard : cb && decide (0 < total) with _ | _
      · simp [hguard]
      · simp only [hguard, if_true]
        rw [show segTotalWork (c :: rest) =
          c.frames.length + segTotalWork rest from by
            simp [segTotalWork]]
        rw [List.range_add, List.map_append, List.map_map]
        congr 1
        apply List.map_congr_left
        intro i _
        simp only [Function.comp_apply]
        rw [show done + c.frames.length + 1 + i =
          done + 1 + (c.frames.length + i) from by omega]

theorem run_segment_watershed_masks (blur : (ℕ → ℕ → ℚ) → (ℕ → ℕ → ℚ))
    (sigma margin : ℚ) (min_distance : ℕ) (bgArr : Option (ℕ → ℚ))
    (crops : List SegCrop) (cb : Bool) :
    (run_segment_watershed blur sigma margin min_distance bgArr crops
      cb).1 =
    crops.map fun c =>
      (c.cid, segMasksFrom blur sigma margin min_distance bgArr c
        c.frames 0) := by
  rw [run_segment_watershed]
  exact segCropsGo_masks blur sigma margin min_distance bgArr cb _ _ crops 0 0

theorem run_segment_watershed_fracs (blur : (ℕ → ℕ → ℚ) → (ℕ → ℕ → ℚ))
    (sigma margin : ℚ) (min_distance : ℕ) (bgArr : Option (ℕ → ℚ))
    (crops : List SegCrop) :
    (run_segment_watershed blur sigma margin min_distance bgArr crops
      true).2.map Prod.fst =
    ((List.range (segTotalWork crops)).map
      fun i => ((1 + i : ℕ) : ℚ) / (segTotalWork crops : ℚ)) ++ [1] := by
  rw [run_segment_watershed]
  show ((segCropsGo blur sigma margin min_distance bgArr true
      (segTotalWork crops) crops.length crops 0 0).2.1 ++
    (if true then [((1 : ℚ), "Done")] else [])).map Prod.fst = _
  rw [if_pos rfl, List.map_append, segCropsGo_fracs]
  rcases Nat.eq_zero_or_pos (segTotalWork crops) with hz | hpos
  · rw [hz]
    simp
  · rw [if_pos (by simp [hpos])]
    simp only [Nat.zero_add, List.map_cons, List.map_nil]

/-- The records one crop contributes, as the per-frame step applied
along the frame/mask series. -/
def anaRowsFrom (bgArr : Option (ℕ → ℚ)) (c : AnalyzeCrop) :
    List (ℕ → ℕ → ℚ) → List (ℕ → ℕ → ℕ) → ℕ → List CellRecord
  | [], _, _ => []
  | f :: fs, ms, t =>
      anaDriverFrame bgArr c.hh c.ww t c.cid f (ms.headD fun _ _ => 0) ++
        anaRowsFrom bgArr c fs ms.tail (t + 1)

theorem anaCropGo_rows (bgArr : Option (ℕ → ℚ)) (cb : Bool)
    (total n_crops ci n_times : ℕ) (c : AnalyzeCrop) :
    ∀ (fs : List (ℕ → ℕ → ℚ)) (ms : List (ℕ → ℕ → ℕ)) (t done : ℕ),
      (anaCropGo bgArr cb total n_crops ci n_times c fs ms t done).1 =
      anaRowsFrom bgArr c fs ms t := by
  intro fs
  induction fs with
  | nil => intro ms t done; rfl
  | cons f fs ih =>
      intro ms t done
      rw [anaCropGo, anaRowsFrom]
      exact congrArg _ (ih ms.tail (t + 1) (done + 1))

theorem anaCropGo_done (bgArr : Option (ℕ → ℚ)) (cb : Bool)
    (total n_crops ci n_times : ℕ) (c : AnalyzeCrop) :
    ∀ (fs : List (ℕ → ℕ → ℚ)) (ms : List (ℕ → ℕ → ℕ)) (t done : ℕ),
      (anaCropGo bgArr cb total n_crops ci n_times c fs ms t done).2.2 =
        done + fs.length := by
  intro fs
  induction fs with
  | nil => intro ms t done; rfl
  | cons f fs ih =>
      intro ms t done
      rw [anaCropGo]
      show (anaCropGo bgArr cb total n_crops ci n_times c fs ms.tail
        (t + 1) (done + 1)).2.2 = done + (f :: fs).length
      rw [ih ms.tail (t + 1) (done + 1), List.length_cons]
      omega

theorem anaCropGo_fracs (bgArr : Option (ℕ → ℚ)) (cb : Bool)
    (total n_crops ci n_times : ℕ) (c : AnalyzeCrop) :
    ∀ (fs : List (ℕ → ℕ → ℚ)) (ms : List (ℕ → ℕ → ℕ)) (t done : ℕ),
      (anaCropGo bgArr cb total n_crops ci n_times c fs ms t
        done).2.1.map Prod.fst =
      if cb && decide (0 < total) then
        (List.range fs.length).map
          fun i => ((done + 1 + i : ℕ) : ℚ) / (total : ℚ)
      else [] := by
  intro fs
  induction fs with
  | nil =>
      intro ms t done
      rcases cb <;> simp [anaCropGo]
  | cons f fs ih =>
      intro ms t done
      rw [anaCropGo]
      show ((if cb && decide (0 < total) then
          [(((done + 1 : ℕ) : ℚ) / (total : ℚ),
            progressMsg ci n_crops t n_times)] else []) ++
        (anaCropGo bgArr cb total n_crops ci n_times c fs ms.tail (t + 1)
          (done + 1)).2.1).map Prod.fst = _
      rw [List.map_append, ih ms.tail (t + 1) (done + 1)]
      rcases hguard : cb && decide (0 < total) with _ | _
      · simp [hguard]
      · simp only [hguard, if_true, List.length_cons,
          List.range_succ_eq_map, List.map_cons, List.map_map,
          List.singleton_append, Nat.add_zero, List.map_nil,
          List.nil_append]
        congr 1
        apply List.map_congr_left
        intro i _
        simp only [Function.comp_apply]
        rw [show done + 1 + 1 + i = done + 1 + (i + 1) from by omega]

theorem anaCropsGo_rows (bgArr : Option (ℕ → ℚ)) (cb : Bool)
    (total n_crops : ℕ) :
    ∀ (crops : List AnalyzeCrop) (ci done : ℕ),
      (anaCropsGo bgArr cb total n_crops crops ci done).1 =
      crops.flatMap fun c => anaRowsFrom bgArr c c.frames c.masks 0 := by
  intro crops
  induction crops with
  | nil => intro ci done; rfl
  | cons c rest ih =>
      intro ci done
      rw [anaCropsGo, List.flatMap_cons]
      refine congrArg₂ _ ?_ (ih _ _)
      rw [anaCropGo_rows]

theorem anaCropsGo_done (bgArr : Option (ℕ → ℚ)) (cb : Bool)
    (total n_crops : ℕ) :
    ∀ (crops : List AnalyzeCrop) (ci done : ℕ),
      (anaCropsGo bgArr cb total n_crops crops ci done).2.2 =
        done + anaTotalWork crops := by
  intro crops
  induction crops with
  | nil => intro ci done; simp [anaCropsGo, anaTotalWork]
  | cons c rest ih =>
      intro ci done
      rw [anaCropsGo]
      show (anaCropsGo bgArr cb total n_crops rest (ci + 1) _).2.2 = _
      rw [ih, anaCropGo_done]
      rw [show anaTotalWork (c :: rest) =
        c.frames.length + anaTotalWork rest from by simp [anaTotalWork]]
      omega

theorem anaCropsGo_fracs (bgArr : Option (ℕ → ℚ)) (cb : Bool)
    (total n_crops : ℕ) :
    ∀ (crops : List AnalyzeCrop) (ci done : ℕ),
      (anaCropsGo bgArr cb total n_crops crops ci done).2.1.map Prod.fst =
      if cb && decide (0 < total) then
        (List.range (anaTotalWork crops)).map
          fun i => ((done + 1 + i : ℕ) : ℚ) / (total : ℚ)
      else [] := by
  intro crops
  induction crops with
  | nil =>
      intro ci done
      rcases cb <;> simp [anaCropsGo, anaTotalWork]
  | cons c rest ih =>
      intro ci done
      rw [anaCropsGo]
      show ((anaCropGo bgArr cb total n_crops ci c.frames.length c c.frames
          c.masks 0 done).2.1 ++
        (anaCropsGo bgArr cb total n_crops rest (ci + 1) _).2.1).map
          Prod.fst = _
      rw [List.map_append, anaCropGo_fracs, ih, anaCropGo_done]
      rcases hguard : cb && decide (0 < total) with _ | _
      · simp [hguard]
      · simp only [hguard, if_true]
        rw [show anaTotalWork (c :: rest) =
          c.frames.length + anaTotalWork rest from by
            simp [anaTotalWork]]
        rw [List.range_add, List.map_append, List.map_map]
        congr 1
        apply List.map_congr_left
        intro i _
        simp only [Function.comp_apply]
        rw [show done + c.frames.length + 1 + i =
          done + 1 + (c.frames.length + i) from by omega]

theorem run_analyze_lines (bgArr : Option (ℕ → ℚ))
    (crops : List AnalyzeCrop) (out_path : String) (cb : Bool) :
    (run_analyze bgArr crops out_path cb).1 =
    csvHeader ::
      (crops.flatMap fun c =>
        anaRowsFrom bgArr c c.frames c.masks 0).map rowLine := by
  rw [run_analyze]
  show csvHeader :: (anaCropsGo bgArr cb (anaTotalWork crops) crops.length
    crops 0 0).1.map rowLine = _
  rw [anaCropsGo_rows]

theorem run_analyze_fracs (bgArr : Option (ℕ → ℚ))
    (crops : List AnalyzeCrop) (out_path : String) :
    (run_analyze bgArr crops out_path true).2.map Prod.fst =
    ((List.range (anaTotalWork crops)).map
      fun i => ((1 + i : ℕ) : ℚ) / (anaTotalWork crops : ℚ)) ++ [1] := by
  rw [run_analyze]
  show ((anaCropsGo bgArr true (anaTotalWork crops) crops.length crops 0
      0).2.1 ++
    (if true then [((1 : ℚ), "Wrote " ++ toString (anaCropsGo bgArr true
      (anaTotalWork crops) crops.length crops 0 0).1.length ++ " rows to "
      ++ out_path)] else [])).map Prod.fst = _
  rw [if_pos rfl, List.map_append, anaCropsGo_fracs]
  rcases Nat.eq_zero_or_pos (anaTotalWork crops) with hz | hpos
  · rw [hz]
    simp
  · rw [if_pos (by simp [hpos])]
    simp only [Nat.zero_add, List.map_cons, List.map_nil]

theorem fracsShape_pairwise (total : ℕ) :
    (((List.range total).map fun i => ((1 + i : ℕ) : ℚ) / (total : ℚ)) ++
      [1]).Pairwise (· ≤ ·) := by
  rw [List.pairwise_append]
  refine ⟨?_, List.pairwise_singleton _ _, ?_⟩
  · rw [List.pairwise_map]
    apply List.Pairwise.imp_of_mem ?_ (List.pairwise_lt_range total)
    intro i j _ _ hij
    rcases Nat.eq_zero_or_pos total with rfl | hpos
    · simp
    · rw [div_le_div_iff_of_pos_right (by exact_mod_cast hpos)]
      exact_mod_cast by omega
  · intro x hx y hy
    rw [List.mem_singleton] at hy
    subst hy
    rw [List.mem_map] at hx
    obtain ⟨i, hi, rfl⟩ := hx
    rw [List.mem_range] at hi
    rw [div_le_one (by exact_mod_cast (by omega : 0 < total))]
    exact_mod_cast by omega

theorem fracsShape_bounds (total : ℕ) :
    ∀ f ∈ ((List.range total).map
        fun i => ((1 + i : ℕ) : ℚ) / (total : ℚ)) ++ [1],
      0 ≤ f ∧ f ≤ 1 := by
  intro f hf
  rw [List.mem_append] at hf
  rcases hf with hf | hf
  · rw [List.mem_map] at hf
    obtain ⟨i, hi, rfl⟩ := hf
    rw [List.mem_range] at hi
    constructor
    · apply div_nonneg <;> positivity
    · have hpos : (0 : ℚ) < total := by
        exact_mod_cast (by omega : 0 < total)
      rw [div_le_one hpos]
      exact_mod_cast by omega
  · rw [List.mem_singleton] at hf
    subst hf
    norm_num

/-- A 5×5 frame whose four zero-valued pixels isolate the foreground
pixel `(3,3)` from the rest of the foreground: with
`background = margin = 0` and `min_distance = 2` the pixel `(3,3)` has
squared distance 1 to the background while its 5×5 window contains
pixels of larger distance, so it is not a peak, and its 4-connected
foreground component `{(3,3)}` carries no marker. -/
def cexFrame : ℕ → ℕ → ℚ := fun y x =>
  if (y = 2 ∧ x = 3) ∨ (y = 3 ∧ x = 2) ∨ (y = 3 ∧ x = 4) ∨ (y = 4 ∧ x = 3)
  then 0 else 10

/-! ## Claim theorems -/

/-- C5: for every frame/mask pair of equal shape and every background,
`t` and `crop_id`, quantification emits exactly one `CellRecord` per
distinct nonzero label present in the mask (their `cell` fields are
exactly the distinct nonzero labels), in ascending label order, with
`total_fluorescence` the sum of frame values over the pixels of that
label, `cell_area` their count, and the background passed through
unchanged into every record; no record is emitted for label 0, and a
mask with no nonzero labels yields an empty sequence, not an error. -/
theorem quantify_one_record_per_label (h w : ℕ) (fluo : ℕ → ℕ → ℚ)
    (mask : ℕ → ℕ → ℕ) (background : ℚ) (t : ℕ) (crop : String) :
    ((quantifyFrame h w fluo mask background t crop).map CellRecord.cell =
      (uniqueLabels h w mask).filter fun cid => decide (cid ≠ 0)) ∧
    ((quantifyFrame h w fluo mask background t crop).map
      CellRecord.cell).Sorted (· < ·) ∧
    (∀ r ∈ quantifyFrame h w fluo mask background t crop,
      r.cell ≠ 0 ∧
      r.total_fluorescence = cellFluo h w fluo mask r.cell ∧
      r.cell_area = cellArea h w mask r.cell ∧
      r.background = background ∧ r.t = t ∧ r.crop = crop) ∧
    ((∀ p, inBounds h w p → mask p.1 p.2 = 0) →
      quantifyFrame h w fluo mask background t crop = []) := by
  refine ⟨quantifyFrame_cells h w fluo mask background t crop, ?_, ?_, ?_⟩
  · rw [quantifyFrame_cells]
    exact List.Pairwise.filter _ (uniqueLabels_sorted h w mask)
  · intro r hr
    obtain ⟨h0, _, ht', hcr, hbg, hfl, har⟩ := mem_quantifyFrame hr
    exact ⟨h0, hfl, har, hbg, ht', hcr⟩
  · exact quantifyFrame_empty
/-- C5 witness: a 1×1 frame with mask label 1 yields exactly the
record for cell 1; the all-zero mask yields the empty sequence. -/
theorem quantify_one_record_per_label_witness :
    (quantifyFrame 1 1 (fun _ _ => (5 : ℚ)) (fun _ _ => 1) 2 0 "c").map
      CellRecord.cell = [1] ∧
    quantifyFrame 1 1 (fun _ _ => (5 : ℚ)) (fun _ _ => 0) 2 0 "c" = [] := by
  constructor
  · rw [(quantify_one_record_per_label 1 1 (fun _ _ => (5 : ℚ))
      (fun _ _ => 1) 2 0 "c").1]
    decide
  · exact (quantify_one_record_per_label 1 1 (fun _ _ => (5 : ℚ))
      (fun _ _ => 0) 2 0 "c").2.2.2 (fun p _ => rfl)

theorem quantifyFrame_example :
    quantifyFrame 1 1 (fun _ _ => (5 : ℚ)) (fun _ _ => 1) 2 0 "c" =
    [{ t := 0, crop := "c", cell := 1, total_fluorescence := 5,
       cell_area := 1, background := 2 }] := by
  have hpix : cellPixels 1 1 (fun _ _ => 1) 1 = [(0, 0)] := by decide
  have hflu : cellFluo 1 1 (fun _ _ => (5 : ℚ)) (fun _ _ => 1) 1 = 5 := by
    rw [cellFluo, hpix]
    simp
  have har : cellArea 1 1 (fun _ _ => 1) 1 = 1 := by
    rw [cellArea, hpix]
    rfl
  rw [quantifyFrame]
  rw [show (uniqueLabels 1 1 fun _ _ => 1).filter
    (fun cid => decide (cid ≠ 0)) = [1] from by decide]
  rw [List.map_cons, List.map_nil, hflu, har]

/-- C6: the sum of `cell_area` over all emitted records equals the
total count of nonzero-labelled pixels of the mask, and each record's
`cell_area` is the exact number of pixels carrying its label. -/
theorem quantify_area_identity (h w : ℕ) (fluo : ℕ → ℕ → ℚ)
    (mask : ℕ → ℕ → ℕ) (background : ℚ) (t : ℕ) (crop : String) :
    (((quantifyFrame h w fluo mask background t crop).map
        CellRecord.cell_area).sum =
      ((rowMajor h w).filter fun p => decide (mask p.1 p.2 ≠ 0)).length) ∧
    (∀ r ∈ quantifyFrame h w fluo mask background t crop,
      r.cell_area = ((rowMajor h w).filter fun p =>
        decide (mask p.1 p.2 = r.cell)).length) := by
  refine ⟨quantifyFrame_area_sum h w fluo mask background t crop, ?_⟩
  intro r hr
  have harea := (mem_quantifyFrame hr).2.2.2.2.2.2
  rw [harea, cellArea, cellPixels]

/-- C6 witness: on the 1×1 example the area sum counts the single
nonzero-labelled pixel, and the emitted record's area is that count. -/
theorem quantify_area_identity_witness :
    ((quantifyFrame 1 1 (fun _ _ => (5 : ℚ)) (fun _ _ => 1) 2 0 "c").map
      CellRecord.cell_area).sum = 1 ∧
    ({ t := 0, crop := "c", cell := 1, total_fluorescence := 5,
       cell_area := 1, background := 2 } : CellRecord).cell_area =
      ((rowMajor 1 1).filter fun p =>
        decide ((fun _ _ => (1 : ℕ)) p.1 p.2 =
          ({ t := 0, crop := "c", cell := 1, total_fluorescence := 5,
             cell_area := 1, background := 2 } : CellRecord).cell)).length := by
  constructor
  · rw [(quantify_area_identity 1 1 (fun _ _ => (5 : ℚ)) (fun _ _ => 1)
      2 0 "c").1]
    decide
  · exact (quantify_area_identity 1 1 (fun _ _ => (5 : ℚ)) (fun _ _ => 1)
      2 0 "c").2 _ (by rw [quantifyFrame_example]; exact List.mem_cons_self _ _)

/-- C2: watershed mode labels only foreground pixels: wherever the
working (blurred, per spec §4.2 step 1) frame value is at most
`background + margin` the output is `0`, and a nonzero label certifies
a strictly larger value. -/
theorem watershed_foreground_only (h w : ℕ)
    (blur : (ℕ → ℕ → ℚ) → (ℕ → ℕ → ℚ)) (sigma background margin : ℚ)
    (min_distance : ℕ) (fluo : ℕ → ℕ → ℚ) :
    (∀ y x, blurStep blur sigma fluo y x ≤ background + margin →
      segment_frame_watershed h w blur sigma background margin min_distance
        fluo y x = 0) ∧
    (∀ y x, segment_frame_watershed h w blur sigma background margin
        min_distance fluo y x ≠ 0 →
      background + margin < blurStep blur sigma fluo y x) := by
  constructor
  · intro y x hle
    by_contra hnz
    obtain ⟨_, hfg, _⟩ := watershedOnFg_sound hnz
    exact absurd (of_decide_eq_true hfg) (not_lt.mpr hle)
  · intro y x hnz
    obtain ⟨_, hfg, _⟩ := watershedOnFg_sound hnz
    exact of_decide_eq_true hfg

/-- C2 witness: an all-zero 1×1 frame with `background = margin = 0`
has no foreground, and its watershed mask is `0` at the sole pixel. -/
theorem watershed_foreground_only_witness :
    blurStep id 0 (fun _ _ => (0 : ℚ)) 0 0 ≤ 0 + 0 ∧
    segment_frame_watershed 1 1 id 0 0 0 1 (fun _ _ => (0 : ℚ)) 0 0 = 0 := by
  have hle : blurStep id 0 (fun _ _ => (0 : ℚ)) 0 0 ≤ 0 + 0 := by
    simp only [blurStep]
    rw [if_neg (lt_irrefl (0 : ℚ))]
    norm_num
  exact ⟨hle,
    (watershed_foreground_only 1 1 id 0 0 0 1 fun _ _ => (0 : ℚ)).1 0 0 hle⟩

/-- C3: peak mode: if the plateau count `N` is positive every pixel of
the mask carries a label in `{1,...,N}` (no pixel is `0`); if `N = 0`
the mask is all zero (over the same `h × w` domain as the frame). -/
theorem peaks_label_cover (h w : ℕ) (blur : (ℕ → ℕ → ℚ) → (ℕ → ℕ → ℚ))
    (sigma min_intensity : ℚ) (min_distance : ℕ) (fluo : ℕ → ℕ → ℚ) :
    (numLabels h w (peaksMask h w min_distance min_intensity
        (blurStep blur sigma fluo)) ≠ 0 →
      ∀ y x, 1 ≤ segment_frame_peaks h w blur sigma min_intensity
          min_distance fluo y x ∧
        segment_frame_peaks h w blur sigma min_intensity min_distance
            fluo y x ≤
          numLabels h w (peaksMask h w min_distance min_intensity
            (blurStep blur sigma fluo))) ∧
    (numLabels h w (peaksMask h w min_distance min_intensity
        (blurStep blur sigma fluo)) = 0 →
      segment_frame_peaks h w blur sigma min_intensity min_distance fluo =
        fun _ _ => 0) := by
  constructor
  · intro hN y x
    exact peaksOnG_all_labeled hN y x
  · intro hN
    exact peaksOnG_no_plateaus hN

/-- C3 witness: a 2×2 frame with a single bright pixel has one
plateau, and the pixel `(0,0)` receives the label `1`. -/
theorem peaks_label_cover_witness :
    numLabels 2 2 (peaksMask 2 2 1 0 (blurStep id 0 fun y x =>
        if y = 1 ∧ x = 1 then (100 : ℚ) else 0)) ≠ 0 ∧
    (1 ≤ segment_frame_peaks 2 2 id 0 0 1 (fun y x =>
        if y = 1 ∧ x = 1 then (100 : ℚ) else 0) 0 0 ∧
      segment_frame_peaks 2 2 id 0 0 1 (fun y x =>
        if y = 1 ∧ x = 1 then (100 : ℚ) else 0) 0 0 ≤
      numLabels 2 2 (peaksMask 2 2 1 0 (blurStep id 0 fun y x =>
        if y = 1 ∧ x = 1 then (100 : ℚ) else 0))) := by
  refine ⟨by decide, ?_⟩
  exact (peaks_label_cover 2 2 id 0 0 1 fun y x =>
    if y = 1 ∧ x = 1 then (100 : ℚ) else 0).1 (by decide) 0 0

/-- C4: peak-mode seed selection on the working image `g`: the seed
list has exactly one entry per plateau, the entry of plateau `i` is
`seedOfPlateau` of its row-major pixel list, that seed belongs to the
plateau, maximises `g` over it, and every plateau pixel listed before
the seed has a strictly smaller value (first-in-row-major tie-break). -/
theorem peak_seed_selection (h w min_distance : ℕ) (min_intensity : ℚ)
    (g : ℕ → ℕ → ℚ) (i : ℕ) (h1 : 1 ≤ i)
    (h2 : i ≤ numLabels h w (peaksMask h w min_distance min_intensity g)) :
    (seedsList h w (peaksMask h w min_distance min_intensity g) g).length =
      numLabels h w (peaksMask h w min_distance min_intensity g) ∧
    (seedsList h w (peaksMask h w min_distance min_intensity g) g).get?
        (i - 1) =
      some (seedOfPlateau g (plateauPixels h w
        (peaksMask h w min_distance min_intensity g) i)) ∧
    seedOfPlateau g (plateauPixels h w
        (peaksMask h w min_distance min_intensity g) i) ∈
      plateauPixels h w (peaksMask h w min_distance min_intensity g) i ∧
    (∀ q ∈ plateauPixels h w (peaksMask h w min_distance min_intensity g) i,
      g q.1 q.2 ≤
        g (seedOfPlateau g (plateauPixels h w
            (peaksMask h w min_distance min_intensity g) i)).1
          (seedOfPlateau g (plateauPixels h w
            (peaksMask h w min_distance min_intensity g) i)).2) ∧
    ∃ l1 l2,
      plateauPixels h w (peaksMask h w min_distance min_intensity g) i =
        l1 ++ seedOfPlateau g (plateauPixels h w
          (peaksMask h w min_distance min_intensity g) i) :: l2 ∧
      ∀ q ∈ l1, g q.1 q.2 <
        g (seedOfPlateau g (plateauPixels h w
            (peaksMask h w min_distance min_intensity g) i)).1
          (seedOfPlateau g (plateauPixels h w
            (peaksMask h w min_distance min_intensity g) i)).2 := by
  have hne := plateauPixels_ne_nil h1 h2
  obtain ⟨hmem, hmax, l1, l2, hsplit, hless⟩ := seedOfPlateau_spec hne
  refine ⟨seedsList_length h w _ g, ?_, hmem, hmax, l1, l2, hsplit, hless⟩
  rw [seedsList, List.get?_map,
    List.get?_range (by omega : i - 1 < numLabels h w
      (peaksMask h w min_distance min_intensity g))]
  rw [Option.map_some', Nat.sub_add_cancel h1]

/-- C4 witness: on a constant 2×2 frame the whole grid is one plateau
and the theorem applies at `i = 1`. -/
theorem peak_seed_selection_witness :
    (1 ≤ 1 ∧
      1 ≤ numLabels 2 2 (peaksMask 2 2 1 0
        (blurStep id 0 fun _ _ => (10 : ℚ)))) ∧
    (seedsList 2 2 (peaksMask 2 2 1 0 (blurStep id 0 fun _ _ => (10 : ℚ)))
        (blurStep id 0 fun _ _ => (10 : ℚ))).length =
      numLabels 2 2 (peaksMask 2 2 1 0
        (blurStep id 0 fun _ _ => (10 : ℚ))) := by
  refine ⟨⟨le_refl 1, by decide⟩, ?_⟩
  exact (peak_seed_selection 2 2 1 0 (blurStep id 0 fun _ _ => (10 : ℚ))
    1 (le_refl 1) (by decide)).1

/-- C7: when the background store is absent (`bg_arr is None`), both
drivers fall back to the median intensity of the current fluorescence
frame as the background of that frame. -/
theorem median_fallback_background (blur : (ℕ → ℕ → ℚ) → (ℕ → ℕ → ℚ))
    (sigma margin : ℚ) (min_distance hh ww t : ℕ) (cid : String)
    (f : ℕ → ℕ → ℚ) (m : ℕ → ℕ → ℕ) (bgArr : Option (ℕ → ℚ))
    (hb : bgArr = none) :
    segDriverFrame blur sigma margin min_distance bgArr hh ww t f =
      segment_frame_watershed hh ww blur sigma
        (npMedian (frameValues hh ww f)) margin min_distance f ∧
    anaDriverFrame bgArr hh ww t cid f m =
      quantifyFrame hh ww f m (npMedian (frameValues hh ww f)) t cid := by
  subst hb
  exact ⟨rfl, rfl⟩

/-- C7 witness: the fallback applied to a concrete 1×1 frame. -/
theorem median_fallback_background_witness :
    (none : Option (ℕ → ℚ)) = none ∧
    segDriverFrame id 0 0 1 none 1 1 0 (fun _ _ => (0 : ℚ)) =
      segment_frame_watershed 1 1 id 0
        (npMedian (frameValues 1 1 fun _ _ => (0 : ℚ))) 0 1
        (fun _ _ => (0 : ℚ)) :=
  ⟨rfl, (median_fallback_background id 0 0 1 1 1 0 "c" (fun _ _ => (0 : ℚ))
    (fun _ _ => 0) none rfl).1⟩

/-- C9: progress reporting of both drivers: supplying no callback
changes nothing about the masks and CSV lines produced; with a
callback, the reported fractions are monotonically non-decreasing, lie
in `[0,1]`, number one per completed `(crop, t)` unit plus one final
event, and the last reported fraction is `1`. -/
theorem progress_reporting (blur : (ℕ → ℕ → ℚ) → (ℕ → ℕ → ℚ))
    (sigma margin : ℚ) (min_distance : ℕ) (bgArr bgArr2 : Option (ℕ → ℚ))
    (crops : List SegCrop) (acrops : List AnalyzeCrop) (out_path : String)
    (cb : Bool) :
    (run_segment_watershed blur sigma margin min_distance bgArr crops
        cb).1 =
      (run_segment_watershed blur sigma margin min_distance bgArr crops
        false).1 ∧
    (run_analyze bgArr2 acrops out_path cb).1 =
      (run_analyze bgArr2 acrops out_path false).1 ∧
    ((run_segment_watershed blur sigma margin min_distance bgArr crops
        true).2.map Prod.fst).Pairwise (· ≤ ·) ∧
    (∀ f ∈ (run_segment_watershed blur sigma margin min_distance bgArr
        crops true).2.map Prod.fst, 0 ≤ f ∧ f ≤ 1) ∧
    (run_segment_watershed blur sigma margin min_distance bgArr crops
        true).2.length = segTotalWork crops + 1 ∧
    ((run_segment_watershed blur sigma margin min_distance bgArr crops
        true).2.map Prod.fst).getLast? = some 1 ∧
    ((run_analyze bgArr2 acrops out_path true).2.map
        Prod.fst).Pairwise (· ≤ ·) ∧
    (∀ f ∈ (run_analyze bgArr2 acrops out_path true).2.map Prod.fst,
      0 ≤ f ∧ f ≤ 1) ∧
    (run_analyze bgArr2 acrops out_path true).2.length =
      anaTotalWork acrops + 1 ∧
    ((run_analyze bgArr2 acrops out_path true).2.map Prod.fst).getLast? =
      some 1 := by
  refine ⟨?_, ?_, ?_, ?_, ?_, ?_, ?_, ?_, ?_, ?_⟩
  · rw [run_segment_watershed_masks, run_segment_watershed_masks]
  · rw [run_analyze_lines, run_analyze_lines]
  · rw [run_segment_watershed_fracs]
    exact fracsShape_pairwise _
  · rw [run_segment_watershed_fracs]
    exact fracsShape_bounds _
  · rw [← List.length_map _ Prod.fst, run_segment_watershed_fracs]
    simp
  · rw [run_segment_watershed_fracs]
    exact List.getLast?_concat _
  · rw [run_analyze_fracs]
    exact fracsShape_pairwise _
  · rw [run_analyze_fracs]
    exact fracsShape_bounds _
  · rw [← List.length_map _ Prod.fst, run_analyze_fracs]
    simp
  · rw [run_analyze_fracs]
    exact List.getLast?_concat _

/-- C9 witness: the final reported fraction of a concrete run is a
reported fraction and lies in `[0,1]`. -/
theorem progress_reporting_witness :
    (1 : ℚ) ∈ (run_segment_watershed id 0 0 1 none [] true).2.map
      Prod.fst ∧
    (0 ≤ (1 : ℚ) ∧ (1 : ℚ) ≤ 1) := by
  have hmem : (1 : ℚ) ∈ (run_segment_watershed id 0 0 1 none [] true).2.map
      Prod.fst := by
    rw [run_segment_watershed_fracs]
    simp [segTotalWork]
  exact ⟨hmem,
    (progress_reporting id 0 0 1 none none [] [] "p" true).2.2.2.1 1 hmem⟩

/-- C10: a position whose crops carry zero total frames: the analyze
driver completes, writes only the CSV header, emits no per-unit
progress event, and reports exactly the one final event `(1, ...)`
when a callback is supplied (and nothing without one). -/
theorem analyze_empty_position (bgArr : Option (ℕ → ℚ))
    (crops : List AnalyzeCrop) (out_path : String)
    (h0 : anaTotalWork crops = 0) :
    (run_analyze bgArr crops out_path true).1 = [csvHeader] ∧
    (run_analyze bgArr crops out_path true).2 =
      [(1, "Wrote 0 rows to " ++ out_path)] ∧
    (run_analyze bgArr crops out_path false).2 = [] := by
  have hfr : ∀ c ∈ crops, c.frames = [] := by
    intro c hc
    rw [← List.length_eq_zero]
    have hsum := h0
    rw [anaTotalWork] at hsum
    exact List.sum_eq_zero_iff.mp hsum _ (List.mem_map_of_mem _ hc)
  have hrows : (crops.flatMap fun c =>
      anaRowsFrom bgArr c c.frames c.masks 0) = [] := by
    rw [List.flatMap_eq_nil_iff]
    intro c hc
    rw [hfr c hc]
    rfl
  have hguard : ∀ cb : Bool, (cb && decide (0 < anaTotalWork crops)) =
      false := by
    intro cb
    rw [h0]
    simp
  have hev : ∀ cb : Bool, (anaCropsGo bgArr cb (anaTotalWork crops)
      crops.length crops 0 0).2.1 = [] := by
    intro cb
    have hm := anaCropsGo_fracs bgArr cb (anaTotalWork crops) crops.length
      crops 0 0
    rw [hguard cb, if_neg (by simp)] at hm
    exact List.map_eq_nil_iff.mp hm
  have hr1 : ∀ cb : Bool, (anaCropsGo bgArr cb (anaTotalWork crops)
      crops.length crops 0 0).1 = [] := by
    intro cb
    rw [anaCropsGo_rows, hrows]
  refine ⟨?_, ?_, ?_⟩
  · rw [run_analyze_lines, hrows]
    rfl
  · show (anaCropsGo bgArr true (anaTotalWork crops) crops.length crops 0
        0).2.1 ++
      (if true then [((1 : ℚ), "Wrote " ++ toString (anaCropsGo bgArr true
        (anaTotalWork crops) crops.length crops 0 0).1.length ++
        " rows to " ++ out_path)] else []) = _
    rw [hev true, hr1 true, List.nil_append, if_pos rfl]
    rfl
  · show (anaCropsGo bgArr false (anaTotalWork crops) crops.length crops 0
        0).2.1 ++
      (if false then [((1 : ℚ), "Wrote " ++ toString (anaCropsGo bgArr
        false (anaTotalWork crops) crops.length crops 0 0).1.length ++
        " rows to " ++ out_path)] else []) = _
    rw [hev false, List.nil_append, if_neg (by simp)]

/-- C10 witness: a position with no crops at all. -/
theorem analyze_empty_position_witness :
    anaTotalWork [] = 0 ∧
    (run_analyze none [] "out.csv" true).1 = [csvHeader] ∧
    (run_analyze none [] "out.csv" true).2 =
      [(1, "Wrote 0 rows to " ++ "out.csv")] :=
  ⟨rfl, (analyze_empty_position none [] "out.csv" rfl).1,
    (analyze_empty_position none [] "out.csv" rfl).2.1⟩

/-- C1 (amended): whenever at least one marker exists, watershed
flooding assigns a nonzero label in `{1,...,n_seeds}` to exactly the
foreground pixels 4-connected to a marker within the foreground; every
background pixel remains `0`, and so does every foreground pixel whose
component carries no marker (the flood never reaches it). -/
theorem watershed_marker_reachability (h w : ℕ)
    (blur : (ℕ → ℕ → ℚ) → (ℕ → ℕ → ℚ)) (sigma background margin : ℚ)
    (min_distance : ℕ) (fluo : ℕ → ℕ → ℚ) :
    (∀ y x, wsFg background margin (blurStep blur sigma fluo) y x =
        false →
      segment_frame_watershed h w blur sigma background margin
        min_distance fluo y x = 0) ∧
    (∀ y x (m : Pos), labelOf h w (wsPeakMask h w min_distance
        (wsFg background margin (blurStep blur sigma fluo))) m ≠ 0 →
      Relation.ReflTransGen (maskAdj h w
        (wsFg background margin (blurStep blur sigma fluo))) m (y, x) →
      segment_frame_watershed h w blur sigma background margin
        min_distance fluo y x ≠ 0) ∧
    (∀ y x, segment_frame_watershed h w blur sigma background margin
        min_distance fluo y x ≠ 0 →
      wsFg background margin (blurStep blur sigma fluo) y x = true ∧
      1 ≤ segment_frame_watershed h w blur sigma background margin
        min_distance fluo y x ∧
      segment_frame_watershed h w blur sigma background margin
          min_distance fluo y x ≤
        numLabels h w (wsPeakMask h w min_distance
          (wsFg background margin (blurStep blur sigma fluo))) ∧
      ∃ m : Pos, labelOf h w (wsPeakMask h w min_distance
          (wsFg background margin (blurStep blur sigma fluo))) m ≠ 0 ∧
        Relation.ReflTransGen (maskAdj h w
          (wsFg background margin (blurStep blur sigma fluo))) m
          (y, x)) := by
  refine ⟨?_, ?_, ?_⟩
  · intro y x hbg
    by_contra hnz
    obtain ⟨_, hfg, _⟩ := watershedOnFg_sound hnz
    rw [hbg] at hfg
    exact Bool.false_ne_true hfg
  · intro y x m hm0 hpath
    exact watershedOnFg_complete hm0 hpath
  · intro y x hnz
    obtain ⟨_, hfg, h1, h2, hm⟩ := watershedOnFg_sound hnz
    exact ⟨hfg, h1, h2, hm⟩

/-- C1 (amended) witness: on a constant bright 1×1 frame the sole
pixel is a marker and receives a nonzero label. -/
theorem watershed_marker_reachability_witness :
    labelOf 1 1 (wsPeakMask 1 1 1
      (wsFg 0 0 (blurStep id 0 fun _ _ => (10 : ℚ)))) (0, 0) ≠ 0 ∧
    segment_frame_watershed 1 1 id 0 0 0 1 (fun _ _ => (10 : ℚ)) 0 0 ≠
      0 := by
  have hfg : wsFg 0 0 (blurStep id 0 fun _ _ => (10 : ℚ)) =
      fun _ _ => true := by
    funext y x
    simp only [wsFg, blurStep, if_neg (lt_irrefl (0 : ℚ))]
    norm_num
  have h1 : labelOf 1 1 (wsPeakMask 1 1 1
      (wsFg 0 0 (blurStep id 0 fun _ _ => (10 : ℚ)))) (0, 0) ≠ 0 := by
    rw [hfg]
    decide
  exact ⟨h1, (watershed_marker_reachability 1 1 id 0 0 0 1
    fun _ _ => (10 : ℚ)).2.1 0 0 (0, 0) h1 Relation.ReflTransGen.refl⟩

/-- C1 (counterexample): on `cexFrame` with `sigma = 0`,
`background = margin = 0`, `min_distance = 2`, markers exist
(`n_seeds ≠ 0`) and `(3,3)` is a foreground pixel, yet the watershed
step leaves it `0`: the claim that every foreground pixel gets a
marker label whenever a marker exists is false. -/
theorem watershed_unreached_foreground_cex :
    numLabels 5 5 (wsPeakMask 5 5 2
      (wsFg 0 0 (blurStep id 0 cexFrame))) ≠ 0 ∧
    wsFg 0 0 (blurStep id 0 cexFrame) 3 3 = true ∧
    segment_frame_watershed 5 5 id 0 0 0 2 cexFrame 3 3 = 0 := by
  have hfg : wsFg 0 0 (blurStep id 0 cexFrame) =
      fun y x => decide ((0 : ℚ) < cexFrame y x) := by
    funext y x
    simp only [wsFg, blurStep, if_neg (lt_irrefl (0 : ℚ))]
    rw [decide_eq_decide]
    rw [zero_add]
  refine ⟨?_, ?_, ?_⟩
  · rw [hfg]
    have hp : wsPeakMask 5 5 2
        (fun y x => decide ((0 : ℚ) < cexFrame y x)) 0 0 = true := by
      decide
    have hrange := labelOf_pos_le
      (show inBounds 5 5 ((0 : ℕ), (0 : ℕ)) from ⟨by omega, by omega⟩) hp
    omega
  · rw [hfg]
    decide
  · show watershedOnFg 5 5 2 (wsFg 0 0 (blurStep id 0 cexFrame)) 3 3 = 0
    rw [hfg]
    by_contra hnz
    obtain ⟨_, _, _, _, m, hm0, hpath⟩ := watershedOnFg_sound hnz
    have hbm := (wsMarkers_bounds m hm0).1
    have hfgm := (wsMarkers_bounds m hm0).2
    have hrev := rtg_maskAdj_symm hbm hfgm hpath
    have hm33 : m = (3, 3) := by
      rcases Relation.ReflTransGen.cases_head hrev with heq | ⟨r, hadj, _⟩
      · exact heq.symm
      · exfalso
        obtain ⟨hr, hmask⟩ := hadj
        rcases mem_nbrs.mp hr with ⟨_, rfl⟩ | ⟨_, rfl⟩ | ⟨_, rfl⟩ |
          ⟨_, rfl⟩ <;> exact absurd hmask (by decide)
    rw [hm33] at hm0
    exact hm0 (labelOf_eq_zero (by decide))

/-- C8 (amended): degenerate but well-formed inputs are not errors:
no foreground, no watershed seeds, and no peak plateaus all resolve to
the all-zero mask, and an all-zero mask yields zero cell records. -/
theorem degenerate_inputs_resolve (h w : ℕ)
    (blur : (ℕ → ℕ → ℚ) → (ℕ → ℕ → ℚ))
    (sigma background margin min_intensity : ℚ) (min_distance : ℕ)
    (fluo : ℕ → ℕ → ℚ) :
    (((rowMajor h w).all fun p =>
        !wsFg background margin (blurStep blur sigma fluo) p.1 p.2) =
          true →
      segment_frame_watershed h w blur sigma background margin
        min_distance fluo = fun _ _ => 0) ∧
    (numLabels h w (wsPeakMask h w min_distance
        (wsFg background margin (blurStep blur sigma fluo))) = 0 →
      segment_frame_watershed h w blur sigma background margin
        min_distance fluo = fun _ _ => 0) ∧
    (numLabels h w (peaksMask h w min_distance min_intensity
        (blurStep blur sigma fluo)) = 0 →
      segment_frame_peaks h w blur sigma min_intensity min_distance
        fluo = fun _ _ => 0) ∧
    (∀ (hh ww : ℕ) (f2 : ℕ → ℕ → ℚ) (bg2 : ℚ) (t : ℕ) (cid : String),
      quantifyFrame hh ww f2 (fun _ _ => 0) bg2 t cid = []) := by
  refine ⟨?_, ?_, ?_, ?_⟩
  · intro hall
    exact watershedOnFg_no_foreground hall
  · intro hN
    exact watershedOnFg_no_seeds hN
  · intro hN
    exact peaksOnG_no_plateaus hN
  · intro hh ww f2 bg2 t cid
    exact quantifyFrame_empty fun p _ => rfl

/-- C8 (amended) witness: a 0×5 frame (zero pixels) has no foreground
and resolves to the all-zero mask. -/
theorem degenerate_inputs_resolve_witness :
    ((rowMajor 0 5).all fun p =>
      !wsFg 0 0 (blurStep id 0 fun _ _ => (0 : ℚ)) p.1 p.2) = true ∧
    segment_frame_watershed 0 5 id 0 0 0 1 (fun _ _ => (0 : ℚ)) =
      fun _ _ => 0 :=
  ⟨rfl, (degenerate_inputs_resolve 0 5 id 0 0 0 0 1
    fun _ _ => (0 : ℚ)).1 rfl⟩

/-- C8 (counterexample): an empty (0×5) frame with the background
store absent: the background "cannot be produced" (`np.median` of an
empty array is NaN with a warning; the embedding returns `0`), yet the
driver completes normally with a well-formed all-zero mask — no
`InvalidInput` condition is signalled anywhere (the source defines no
such condition and raises nothing). -/
theorem empty_frame_silent_cex :
    backgroundFor none 0 0 5 (fun _ _ => (0 : ℚ)) = 0 ∧
    run_segment_watershed id 0 0 1 none
        [⟨"c", 0, 5, [fun _ _ => (0 : ℚ)]⟩] false =
      ([("c", [fun _ _ => 0])], []) := by
  constructor
  · simp [backgroundFor, npMedian, frameValues, rowMajor]
  · rfl
